import Mathlib

/-!
# tokenize: a verification development

Shallow embedding of `tokenize.go` (package `tokenize`) and theorems about it.

Modelling conventions.

* A Go `string` is any sequence of bytes.  It is modelled as the list of the items that a
  `range` loop visits on it (`Str`): an item is either the well-formed UTF-8 encoding of one
  character (`Item.chr`) or a single byte that is not part of a well-formed encoding at its
  place (`Item.bad`), for which `range` yields the rune U+FFFD.  Every Go string has exactly
  one such sequence of items, and two strings are equal when their items are.  A string is
  well-formed UTF-8 when all its items are characters (`WellFormed`).  The theorems range
  over all lists of items, which include the sequence of every Go string.
* The program only inspects the ASCII characters quote, space, tab, carriage return, newline
  and `#`, each of which is an item of its own wherever it stands, so slicing and trimming at
  these characters cuts between items; offsets are counted in items here.
* A slice expression `s[i:]` / `s[:j]` is a checked operation: out of range it
  yields `Fault.sliceOutOfRange` (the Go run-time panic).
* The `for line != ""` loop of `Line` is iterated with an explicit bound on the
  number of iterations; running past the bound yields `Fault.outOfFuel`.
* `bufio.Scanner` (standard library) is modelled by the sequence of tokens that
  the default `ScanLines` split function delivers together with the final value
  of `Err()`, for a stream whose reads all succeed.
-/

namespace Tokenize

/-- A byte with its high bit set: the only bytes that can stand outside a well-formed UTF-8
encoding. -/
abbrev HighByte := { b : Nat // 128 ≤ b ∧ b < 256 }

/-- An item of a Go string, as a `range` loop visits them: the well-formed UTF-8 encoding of a
character, or one byte that is not part of a well-formed encoding at its place. -/
inductive Item where
  | chr : Char → Item
  | bad : HighByte → Item
  deriving DecidableEq, Repr

/-- A Go string, as the list of its items. -/
abbrev Str := List Item

/-- Constant `utf8.RuneError`, the rune U+FFFD that `range` yields for an ill-formed byte. -/
def RuneError : Char := Char.ofNat 65533

/-- The rune that `range` yields for an item. -/
def Item.rune : Item → Char
  | Item.chr c => c
  | Item.bad _ => RuneError

/-- The number of bytes of an item. -/
def Item.size : Item → Nat
  | Item.chr c => c.utf8Size
  | Item.bad _ => 1

/-- Go conversion `string(r)` of a slice of runes to a string: each rune is encoded in UTF-8. -/
def stringOfRunes (r : List Char) : Str := r.map Item.chr

/-- The rune of the double quote. -/
def quoteRune : Char := Char.ofNat 34

/-- The rune of the space. -/
def spaceRune : Char := Char.ofNat 32

/-- The rune of the horizontal tab. -/
def tabRune : Char := Char.ofNat 9

/-- The double quote character. -/
def dquote : Item := Item.chr quoteRune

/-- The space character. -/
def space : Item := Item.chr spaceRune

/-- The horizontal tab character. -/
def tab : Item := Item.chr tabRune

/-- The carriage return character. -/
def cr : Item := Item.chr (Char.ofNat 13)

/-- The newline character. -/
def newline : Item := Item.chr (Char.ofNat 10)

/-- The hash character that starts a comment line. -/
def hash : Item := Item.chr (Char.ofNat 35)

/-- Abnormal outcomes of the embedded code. -/
inductive Fault where
  | sliceOutOfRange
  | outOfFuel
  deriving DecidableEq, Repr

/-- Outcome of a computation: a fault or a value. -/
inductive Res (α : Type) where
  | fault : Fault → Res α
  | ok : α → Res α
  deriving DecidableEq, Repr

/-- Go slice expression `s[i:]`. -/
def sliceFrom (s : Str) (i : Int) : Res Str :=
  if 0 ≤ i ∧ i ≤ (s.length : Int) then Res.ok (s.drop i.toNat) else Res.fault Fault.sliceOutOfRange

/-- Go slice expression `s[:j]`. -/
def sliceTo (s : Str) (j : Int) : Res Str :=
  if 0 ≤ j ∧ j ≤ (s.length : Int) then Res.ok (s.take j.toNat) else Res.fault Fault.sliceOutOfRange

/-- Go `strings.HasPrefix(s, p)`. -/
def HasPrefix (s p : Str) : Bool := p.isPrefixOf s

/-- Go `strings.IndexAny(s, chars)`: the offset of the first character of `s` that occurs in
`chars`, or `-1` when there is none. -/
def IndexAny : Str → Str → Int
  | [], _ => -1
  | c :: s, chars =>
    if c ∈ chars then 0
    else
      let o := IndexAny s chars
      if 0 ≤ o then o + 1 else -1

/-- Go `strings.TrimLeft(s, cutset)`. -/
def TrimLeft (s cutset : Str) : Str := s.dropWhile (fun c => decide (c ∈ cutset))

/-- Go `strings.TrimRight(s, cutset)`. -/
def TrimRight (s cutset : Str) : Str := s.rdropWhile (fun c => decide (c ∈ cutset))

/-- Go `strings.Trim(s, cutset)`. -/
def Trim (s cutset : Str) : Str := TrimRight (TrimLeft s cutset) cutset

/-- The `for i, c := range s` loop of `parsequotedstring`, after `s = s[1:]`.
`s` is the string being ranged over, `i` the offset of the next item, `cs` the items not yet
visited, `prevquote` and `r` the loop variables of the source: `r` is the slice of runes, and
the rune `c` of the source is `it.rune`.  The token returned is `string(r)`. -/
def parsequotedstringLoop (s : Str) : Nat → Str → Bool → List Char → Res (Str × Str)
  | _, [], _, r => Res.ok (stringOfRunes r, [])
  | i, it :: cs, prevquote, r =>
    if it.rune = quoteRune then
      if prevquote then parsequotedstringLoop s (i + 1) cs false (r ++ [it.rune])
      else parsequotedstringLoop s (i + 1) cs true r
    else if it.rune = spaceRune ∨ it.rune = tabRune then
      if prevquote then
        match sliceFrom s i with
        | Res.fault e => Res.fault e
        | Res.ok rest => Res.ok (stringOfRunes r, rest)
      else parsequotedstringLoop s (i + 1) cs prevquote (r ++ [it.rune])
    else parsequotedstringLoop s (i + 1) cs prevquote (r ++ [it.rune])

/-- Function `parsequotedstring(s string) (string, string)`. -/
def parsequotedstring (s : Str) : Res (Str × Str) :=
  match sliceFrom s 1 with
  | Res.fault e => Res.fault e
  | Res.ok s1 => parsequotedstringLoop s1 0 s1 false []

/-- One iteration of the loop body of `Line`, for the current `line`: the token that is
appended to `t` and the new value of `line`. -/
def LineBody (line : Str) : Res (Str × Str) :=
  let r : Res (Str × Str) :=
    if HasPrefix line [dquote] then parsequotedstring line
    else
      let o := IndexAny line [space, tab]
      if 0 ≤ o then
        match sliceTo line o, sliceFrom line o with
        | Res.ok tok, Res.ok rest => Res.ok (tok, rest)
        | Res.fault e, _ => Res.fault e
        | _, Res.fault e => Res.fault e
      else Res.ok (line, [])
  match r with
  | Res.fault e => Res.fault e
  | Res.ok (tok, rest) => Res.ok (tok, TrimLeft rest [space, tab])

/-- The loop `for line != "" { ... }` of `Line`, run for at most `fuel` iterations, with `t`
the tokens collected so far. -/
def LineLoop : Nat → Str → List Str → Res (List Str)
  | 0, line, t => if line ≠ [] then Res.fault Fault.outOfFuel else Res.ok t
  | fuel + 1, line, t =>
    if line ≠ [] then
      match LineBody line with
      | Res.fault e => Res.fault e
      | Res.ok (tok, line1) => LineLoop fuel line1 (t ++ [tok])
    else Res.ok t

/-- Function `Line(line string) []string`.  The loop is given as many iterations as the line
has characters. -/
def Line (line : Str) : Res (List Str) := LineLoop line.length line []

/-- Constant `bufio.MaxScanTokenSize`: the size of the largest token a `bufio.Scanner` with the
default buffer delivers. -/
def MaxScanTokenSize : Nat := 64 * 1024

/-- The errors `Err()` of a `bufio.Scanner` can report when the reads of the underlying stream
all succeed. -/
inductive ScanError where
  | ErrTooLong
  deriving DecidableEq, Repr

/-- Length in bytes of the (UTF-8) string. -/
def byteLen (s : Str) : Nat := (s.map Item.size).sum

/-- Function `dropCR` of `bufio`: drops one terminal carriage return. -/
def dropCR (data : Str) : Str := if data.getLast? = some cr then data.dropLast else data

/-- The tokens that successive calls of `Scan()` deliver with the default split function
`ScanLines`, and the final value of `Err()`, when the stream delivers `text` without read error.
`cur` holds the characters of the current line seen so far.

`ScanLines` returns each line stripped of its newline and of one carriage return before it
(`dropCR`); a last line without newline is returned when it is not empty.  The scanner looks
for the newline in a buffer that grows to `MaxScanTokenSize` bytes and holds the line from its
first byte: when the buffer is full and holds no newline, `Scan()` sets `ErrTooLong` and returns
false.  So a line of `MaxScanTokenSize` bytes or more, newline not counted, stops the scan. -/
def scanLines : Str → Str → List Str × Option ScanError
  | cur, [] =>
    if cur = [] then ([], none)
    else if MaxScanTokenSize ≤ byteLen cur then ([], some ScanError.ErrTooLong)
    else ([dropCR cur], none)
  | cur, c :: rest =>
    if c = newline then
      if MaxScanTokenSize ≤ byteLen cur then ([], some ScanError.ErrTooLong)
      else ((dropCR cur) :: (scanLines [] rest).1, (scanLines [] rest).2)
    else scanLines (cur ++ [c]) rest

/-- The loop `for b.Scan() { ... }` of `reader` over the tokens the scanner delivers, with `r`
the entries collected so far. -/
def readerLoop : List Str → List (List Str) → Res (List (List Str))
  | [], r => Res.ok r
  | tok :: more, r =>
    let s := Trim tok [space, tab, cr]
    if HasPrefix s [hash] = true ∨ s = [] then readerLoop more r
    else
      match Line s with
      | Res.fault e => Res.fault e
      | Res.ok toks => readerLoop more (r ++ [toks])

/-- Function `reader(rd io.Reader) ([][]string, error)`, for a stream that delivers `text`
without read error: the entries and the value of `b.Err()`. -/
def reader (text : Str) : Res (List (List Str) × Option ScanError) :=
  match readerLoop (scanLines [] text).1 [] with
  | Res.fault e => Res.fault e
  | Res.ok r => Res.ok (r, (scanLines [] text).2)

/-- An item as the scanner copies it: through its rune, so that an ill-formed byte becomes the
encoding of U+FFFD. -/
def Item.copied (it : Item) : Item := Item.chr it.rune

/-- A string with every ill-formed byte replaced by the encoding of U+FFFD. -/
def replaceInvalid (T : Str) : Str := T.map Item.copied

/-- A string that is well-formed UTF-8: all its items are characters. -/
def WellFormed (T : Str) : Prop := ∀ it ∈ T, it.copied = it

/-- Index-free form of the scanning loop of `parsequotedstring`: the items still to visit,
`prevquote`, and the string of the runes collected so far.  It is shown equal to
`parsequotedstringLoop` in `parsequotedstringLoop_eq`. -/
def scanFrom : Str → Bool → Str → Str × Str
  | [], _, r => (r, [])
  | c :: cs, prevquote, r =>
    if c = dquote then
      if prevquote then scanFrom cs false (r ++ [c.copied]) else scanFrom cs true r
    else if c = space ∨ c = tab then
      if prevquote then (r, c :: cs) else scanFrom cs prevquote (r ++ [c.copied])
    else scanFrom cs prevquote (r ++ [c.copied])

/-- The runs of the loop of `Line`: `Tokenizes line ts` holds when iterating the loop body from
`line` reaches the empty line having appended exactly the tokens `ts`. -/
inductive Tokenizes : Str → List Str → Prop where
  | done : Tokenizes [] []
  | step {line tok line1 : Str} {ts : List Str} :
      line ≠ [] → LineBody line = Res.ok (tok, line1) → Tokenizes line1 ts →
      Tokenizes line (tok :: ts)

/-! ## Notions used to state the properties -/

/-- Every quote character of `T` doubled. -/
def doubleQuotes : Str → Str
  | [] => []
  | c :: T => if c = dquote then dquote :: dquote :: doubleQuotes T else c :: doubleQuotes T

/-- The quoted form of a token: a quote, the token with every quote doubled, a quote. -/
def quoteToken (T : Str) : Str := dquote :: (doubleQuotes T ++ [dquote])

/-- Splitting a line on runs of spaces/tabs and dropping the empty fields. -/
def fieldsSpec (line : Str) : List Str :=
  (line.splitOnP (fun c => decide (c = space ∨ c = tab))).filter (fun f => decide (f ≠ []))

/-- A non-empty plain word: no space or tab, not beginning with a quote. -/
def isPlainWord (w : Str) : Prop :=
  w ≠ [] ∧ (∀ c ∈ w, c ≠ space ∧ c ≠ tab) ∧ w.head? ≠ some dquote

/-- A token text `w` and the token `t` it stands for: a plain word standing for itself, or the
closed quoted span of a string `T`, standing for `T` as the scanner copies it (`T` itself
when it is well-formed UTF-8). -/
def Decodes (w t : Str) : Prop :=
  (isPlainWord w ∧ t = w) ∨ ∃ T, w = quoteToken T ∧ t = replaceInvalid T

/-- A token text: a plain word or a closed quoted span. -/
def isTokenText (w : Str) : Prop := isPlainWord w ∨ ∃ T, w = quoteToken T

/-- A separator: a non-empty run of spaces and tabs. -/
def isSepRun (s : Str) : Prop := s ≠ [] ∧ ∀ c ∈ s, c = space ∨ c = tab

/-- The token texts joined by the given separators, the `i`-th separator standing between the
`i`-th text and the next one. -/
def joinWith : List Str → List Str → Str
  | [], _ => []
  | [w], _ => w
  | w :: w1 :: ws, sep :: seps => w ++ (sep ++ joinWith (w1 :: ws) seps)
  | w :: w1 :: ws, [] => w ++ joinWith (w1 :: ws) []

/-- The characters that tokenizing never drops: those other than quote, space and tab. -/
def isKept (c : Item) : Bool := decide (c ≠ dquote ∧ c ≠ space ∧ c ≠ tab)

/-- The qualifying lines of a text: its newline-delimited lines, each trimmed of leading and
trailing spaces, tabs and carriage returns, without those that are then empty or begin
with `#`. -/
def qualifyingLines (text : Str) : List Str :=
  ((text.splitOn newline).map (fun l => Trim l [space, tab, cr])).filter
    (fun l => decide (l ≠ [] ∧ l.head? ≠ some hash))

/-- Whether offset `i` of the body `b` holds a space or tab that is preceded in `b` by an odd
number of quote characters. -/
def isStopAt (b : Str) (i : Nat) : Bool :=
  (b[i]? == some space || b[i]? == some tab) && ((b.take i).count dquote % 2 == 1)

/-- The offset at which the reference scan stops: the first space or tab of `b` preceded by an
odd number of quotes, or the end of `b` if there is none. -/
def stopOffset (b : Str) : Nat := ((List.range b.length).find? (isStopAt b)).getD b.length

/-- The string `p` with its 1st, 3rd, 5th, ... quote character deleted, every other character
kept in order. -/
def deleteOddQuotes (p : Str) : Str :=
  (List.range p.length).filterMap (fun j =>
    if p[j]? = some dquote ∧ (p.take (j + 1)).count dquote % 2 = 1 then none else p[j]?)

/-- Reference scan of a body `b` (the string after its first quote): the token and the
remainder. -/
def referenceScan (b : Str) : Str × Str :=
  (deleteOddQuotes (b.take (stopOffset b)), b.drop (stopOffset b))

/-- The predicate `isStopAt` with `n` quotes counted before the body. -/
def isStopAtFrom (n : Nat) (b : Str) (i : Nat) : Bool :=
  (b[i]? == some space || b[i]? == some tab) && ((n + (b.take i).count dquote) % 2 == 1)

/-- The offset `stopOffset` with `n` quotes counted before the body. -/
def stopOffsetFrom (n : Nat) (b : Str) : Nat :=
  ((List.range b.length).find? (isStopAtFrom n b)).getD b.length

/-- The deletion `deleteOddQuotes` with `n` quotes counted before the string. -/
def deleteOddQuotesFrom (n : Nat) (p : Str) : Str :=
  (List.range p.length).filterMap (fun j =>
    if p[j]? = some dquote ∧ (n + (p.take (j + 1)).count dquote) % 2 = 1 then none else p[j]?)

/-- A line of `MaxScanTokenSize` letters, without newline. -/
def longLine : Str := List.replicate MaxScanTokenSize (Item.chr 'a')

/-- The text of two blanks, `# comment`, two newlines, `hello world` and a newline. -/
def sampleText : Str :=
  [space, space, hash, space] ++ stringOfRunes ['c', 'o', 'm', 'm', 'e', 'n', 't']
    ++ [newline, newline] ++ stringOfRunes ['h', 'e', 'l', 'l', 'o'] ++ [space]
    ++ stringOfRunes ['w', 'o', 'r', 'l', 'd'] ++ [newline]

/-- The ill-formed byte `0xFF`, which occurs in no UTF-8 encoding. -/
def byteFF : Item := Item.bad ⟨255, by decide⟩

/-- The character U+FFFD, as the scanner writes it for an ill-formed byte. -/
def replacementChar : Item := Item.chr RuneError

/-- The letter `a`. -/
def letterA : Item := Item.chr 'a'

/-- The letter `b`. -/
def letterB : Item := Item.chr 'b'

/-- The letter `c`. -/
def letterC : Item := Item.chr 'c'

/-- The letter `d`. -/
def letterD : Item := Item.chr 'd'

instance (T : Str) : Decidable (WellFormed T) := by
  unfold WellFormed; infer_instance

instance (w : Str) : Decidable (isPlainWord w) := by
  unfold isPlainWord; infer_instance

instance (s : Str) : Decidable (isSepRun s) := by
  unfold isSepRun; infer_instance

/-! ## Basic facts about the Go primitives -/

theorem mem_seps (c : Item) : c ∈ [space, tab] ↔ (c = space ∨ c = tab) := by
  simp

theorem rune_eq_quoteRune (it : Item) : it.rune = quoteRune ↔ it = dquote := by
  cases it with
  | chr c =>
    constructor
    · intro h; simp only [Item.rune] at h; rw [h]; rfl
    · intro h; injection h
  | bad b =>
    constructor
    · intro h
      have h2 : RuneError = quoteRune := h
      exact absurd h2 (by decide)
    · intro h; cases h

theorem rune_eq_spaceRune (it : Item) : it.rune = spaceRune ↔ it = space := by
  cases it with
  | chr c =>
    constructor
    · intro h; simp only [Item.rune] at h; rw [h]; rfl
    · intro h; injection h
  | bad b =>
    constructor
    · intro h
      have h2 : RuneError = spaceRune := h
      exact absurd h2 (by decide)
    · intro h; cases h

theorem rune_eq_tabRune (it : Item) : it.rune = tabRune ↔ it = tab := by
  cases it with
  | chr c =>
    constructor
    · intro h; simp only [Item.rune] at h; rw [h]; rfl
    · intro h; injection h
  | bad b =>
    constructor
    · intro h
      have h2 : RuneError = tabRune := h
      exact absurd h2 (by decide)
    · intro h; cases h

theorem stringOfRunes_append_rune (r : List Char) (it : Item) :
    stringOfRunes (r ++ [it.rune]) = stringOfRunes r ++ [it.copied] := by
  simp [stringOfRunes, Item.copied]

theorem copied_copied (it : Item) : it.copied.copied = it.copied := rfl

theorem replaceInvalid_nil : replaceInvalid [] = [] := rfl

theorem replaceInvalid_cons (c : Item) (T : Str) :
    replaceInvalid (c :: T) = c.copied :: replaceInvalid T := rfl

theorem copied_dquote : dquote.copied = dquote := rfl

theorem replaceInvalid_append (A B : Str) :
    replaceInvalid (A ++ B) = replaceInvalid A ++ replaceInvalid B := by
  simp [replaceInvalid]

theorem replaceInvalid_of_wellFormed (T : Str) (h : WellFormed T) : replaceInvalid T = T := by
  induction T with
  | nil => rfl
  | cons c T ih =>
    have hc : c.copied = c := h c (by simp)
    have hT : WellFormed T := fun it hit => h it (List.mem_cons_of_mem _ hit)
    simp only [replaceInvalid, List.map_cons, hc] at ih ⊢
    rw [ih hT]

theorem WellFormed_of_suffix {A B : Str} (h : A <:+ B) (hB : WellFormed B) : WellFormed A :=
  fun it hit => hB it (h.subset hit)

theorem dquote_ne_space : dquote ≠ space := by decide

theorem dquote_ne_tab : dquote ≠ tab := by decide

theorem sliceFrom_length_append (pre cs : Str) :
    sliceFrom (pre ++ cs) (pre.length : Int) = Res.ok cs := by
  simp [sliceFrom]

theorem sliceTo_length_append (pre cs : Str) :
    sliceTo (pre ++ cs) (pre.length : Int) = Res.ok pre := by
  simp [sliceTo]

theorem HasPrefix_dquote_cons (c : Item) (cs : Str) :
    HasPrefix (c :: cs) [dquote] = decide (c = dquote) := by
  by_cases h : c = dquote
  · subst h; simp [HasPrefix, List.isPrefixOf]
  · have h2 : ¬ dquote = c := fun e => h e.symm
    simp [HasPrefix, List.isPrefixOf, h, h2]

theorem HasPrefix_nil : HasPrefix [] [dquote] = false := by
  simp [HasPrefix, List.isPrefixOf]

/-- Value of `IndexAny`: the length of the longest prefix without a character of `chars`, or
`-1` when no character of `s` occurs in `chars`. -/
theorem IndexAny_eq (s chars : Str) :
    IndexAny s chars =
      if ∃ c ∈ s, c ∈ chars then ((s.takeWhile (fun c => decide (c ∉ chars))).length : Int)
      else -1 := by
  induction s with
  | nil => simp [IndexAny]
  | cons c s ih =>
    by_cases hc : c ∈ chars
    · simp [IndexAny, hc]
    · by_cases hs : ∃ d ∈ s, d ∈ chars
      · have hs2 : ∃ d, d ∈ s ∧ d ∈ chars := hs
        simp only [IndexAny, hc, if_false, ih, hs, if_true]
        simp [hc, hs2]
      · have hs2 : ¬ ∃ d, d ∈ s ∧ d ∈ chars := hs
        simp only [IndexAny, hc, if_false, ih, hs]
        simp [hc, hs2]

theorem TrimLeft_length_le (s cutset : Str) : (TrimLeft s cutset).length ≤ s.length :=
  (List.dropWhile_suffix _).length_le

theorem TrimLeft_suffix (s cutset : Str) : TrimLeft s cutset <:+ s :=
  List.dropWhile_suffix _

/-! ## The quoted-span scanner -/

theorem parsequotedstringLoop_eq (cs : Str) :
    ∀ (pre : Str) (prevquote : Bool) (r : List Char),
      parsequotedstringLoop (pre ++ cs) pre.length cs prevquote r
        = Res.ok (scanFrom cs prevquote (stringOfRunes r)) := by
  induction cs with
  | nil => intro pre prevquote r; simp [parsequotedstringLoop, scanFrom]
  | cons c cs ih =>
    intro pre prevquote r
    have e : pre ++ c :: cs = (pre ++ [c]) ++ cs := by simp
    have e2 : pre.length + 1 = (pre ++ [c]).length := by simp
    have hs : sliceFrom (pre ++ c :: cs) (pre.length : Int) = Res.ok (c :: cs) :=
      sliceFrom_length_append pre (c :: cs)
    unfold parsequotedstringLoop scanFrom
    rw [hs]
    simp only [e, e2, ih, rune_eq_quoteRune, rune_eq_spaceRune, rune_eq_tabRune,
      stringOfRunes_append_rune]
    split_ifs <;> rfl

theorem parsequotedstring_cons (c : Item) (cs : Str) :
    parsequotedstring (c :: cs) = Res.ok (scanFrom cs false []) := by
  have h : sliceFrom (c :: cs) 1 = Res.ok cs := by
    have := sliceFrom_length_append [c] cs
    simpa using this
  have h2 := parsequotedstringLoop_eq cs [] false []
  simp only [parsequotedstring, h]
  simpa [stringOfRunes] using h2

theorem scanFrom_acc (cs : Str) :
    ∀ (prevquote : Bool) (r : Str),
      scanFrom cs prevquote r = (r ++ (scanFrom cs prevquote []).1, (scanFrom cs prevquote []).2) := by
  induction cs with
  | nil => intro prevquote r; simp [scanFrom]
  | cons c cs ih =>
    intro prevquote r
    unfold scanFrom
    split_ifs
    · rw [ih false (r ++ [c.copied]), ih false ([] ++ [c.copied])]; simp
    · exact ih true r
    · simp
    · rw [ih prevquote (r ++ [c.copied]), ih prevquote ([] ++ [c.copied])]; simp
    · rw [ih prevquote (r ++ [c.copied]), ih prevquote ([] ++ [c.copied])]; simp

theorem scanFrom_suffix (cs : Str) :
    ∀ (prevquote : Bool) (r : Str), (scanFrom cs prevquote r).2 <:+ cs := by
  induction cs with
  | nil => intro prevquote r; simp [scanFrom]
  | cons c cs ih =>
    intro prevquote r
    unfold scanFrom
    split_ifs
    · exact (ih _ _).trans (List.suffix_cons c cs)
    · exact (ih _ _).trans (List.suffix_cons c cs)
    · exact List.suffix_refl _
    · exact (ih _ _).trans (List.suffix_cons c cs)
    · exact (ih _ _).trans (List.suffix_cons c cs)

/-- A body without quote characters is copied to the token in full when no quote is pending,
each ill-formed byte as U+FFFD. -/
theorem scanFrom_no_quote (T : Str) (hT : dquote ∉ T) :
    ∀ r : Str, scanFrom T false r = (r ++ replaceInvalid T, []) := by
  induction T with
  | nil => intro r; simp [scanFrom, replaceInvalid]
  | cons c T ih =>
    intro r
    have hc : c ≠ dquote := fun e => hT (by simp [e])
    have hT2 : dquote ∉ T := fun h => hT (List.mem_cons_of_mem _ h)
    unfold scanFrom
    simp only [hc, if_false, Bool.false_eq_true, ih hT2]
    simp [replaceInvalid]

/-! ## The loop body of `Line` -/

theorem LineBody_quote (cs : Str) :
    LineBody (dquote :: cs)
      = Res.ok ((scanFrom cs false []).1, TrimLeft (scanFrom cs false []).2 [space, tab]) := by
  simp [LineBody, HasPrefix_dquote_cons, parsequotedstring_cons]

theorem LineBody_plain (line : Str) (h : HasPrefix line [dquote] = false) :
    LineBody line
      = Res.ok (line.takeWhile (fun c => decide (c ∉ [space, tab])),
          TrimLeft (line.dropWhile (fun c => decide (c ∉ [space, tab]))) [space, tab]) := by
  have hto := sliceTo_length_append (line.takeWhile (fun c => decide (c ∉ [space, tab])))
    (line.dropWhile (fun c => decide (c ∉ [space, tab])))
  have hfrom := sliceFrom_length_append (line.takeWhile (fun c => decide (c ∉ [space, tab])))
    (line.dropWhile (fun c => decide (c ∉ [space, tab])))
  rw [List.takeWhile_append_dropWhile] at hto hfrom
  unfold LineBody
  rw [h, IndexAny_eq]
  by_cases hs : ∃ c ∈ line, c ∈ [space, tab]
  · simp only [hs, if_true, Bool.false_eq_true, if_false, Int.natCast_nonneg, hto, hfrom]
  · have hall : ∀ c ∈ line, decide (c ∉ [space, tab]) = true := by
      intro c hc
      simp only [decide_eq_true_eq]
      exact fun hm => hs ⟨c, hc, hm⟩
    have ht : line.takeWhile (fun c => decide (c ∉ [space, tab])) = line :=
      List.takeWhile_eq_self_iff.mpr hall
    have hd : line.dropWhile (fun c => decide (c ∉ [space, tab])) = [] :=
      List.dropWhile_eq_nil_iff.mpr hall
    simp only [hs, if_false, Bool.false_eq_true, ht, hd]
    simp [TrimLeft]

/-- The loop body never faults. -/
theorem LineBody_ok (line : Str) : ∃ tok line1, LineBody line = Res.ok (tok, line1) := by
  cases hp : HasPrefix line [dquote]
  · exact ⟨_, _, LineBody_plain line hp⟩
  · cases line with
    | nil => simp [HasPrefix_nil] at hp
    | cons c cs =>
      have hc : c = dquote := by simpa [HasPrefix_dquote_cons] using hp
      subst hc
      exact ⟨_, _, LineBody_quote cs⟩

/-- Each iteration strictly shortens the remaining line. -/
theorem LineBody_shorter (line tok line1 : Str) (hne : line ≠ [])
    (hb : LineBody line = Res.ok (tok, line1)) : line1.length < line.length := by
  cases line with
  | nil => exact absurd rfl hne
  | cons c cs =>
    by_cases hc : c = dquote
    · subst hc
      rw [LineBody_quote] at hb
      injection hb with hb
      injection hb with _ h2
      subst h2
      have h1 := TrimLeft_length_le (scanFrom cs false []).2 [space, tab]
      have h3 := (scanFrom_suffix cs false []).length_le
      simp only [List.length_cons]
      omega
    · have hp : HasPrefix (c :: cs) [dquote] = false := by
        simp [HasPrefix_dquote_cons, hc]
      rw [LineBody_plain _ hp] at hb
      injection hb with hb
      injection hb with _ h2
      subst h2
      by_cases hsep : c ∈ [space, tab]
      · have hd : (c :: cs).dropWhile (fun c => decide (c ∉ [space, tab])) = c :: cs :=
          List.dropWhile_cons_of_neg (by simp only [decide_eq_true_eq, not_not]; exact hsep)
        rw [hd]
        have ht : TrimLeft (c :: cs) [space, tab] = TrimLeft cs [space, tab] :=
          List.dropWhile_cons_of_pos (by simp only [decide_eq_true_eq]; exact hsep)
        rw [ht]
        have := TrimLeft_length_le cs [space, tab]
        simp only [List.length_cons]
        omega
      · have hd : (c :: cs).dropWhile (fun c => decide (c ∉ [space, tab]))
            = cs.dropWhile (fun c => decide (c ∉ [space, tab])) :=
          List.dropWhile_cons_of_pos (by simp only [decide_eq_true_eq]; exact hsep)
        rw [hd]
        have h1 := TrimLeft_length_le (cs.dropWhile (fun c => decide (c ∉ [space, tab]))) [space, tab]
        have h3 := (List.dropWhile_suffix (l := cs) (fun c => decide (c ∉ [space, tab]))).length_le
        simp only [List.length_cons]
        omega

/-! ## The loop of `Line` -/

theorem LineLoop_sound (fuel : Nat) :
    ∀ (line : Str) (t out : List Str), LineLoop fuel line t = Res.ok out →
      ∃ ts, out = t ++ ts ∧ Tokenizes line ts := by
  induction fuel with
  | zero =>
    intro line t out h
    by_cases hl : line = []
    · subst hl
      simp only [LineLoop, ne_eq, not_true_eq_false, if_false, Res.ok.injEq] at h
      exact ⟨[], by simp [h], Tokenizes.done⟩
    · simp [LineLoop, hl] at h
  | succ fuel ih =>
    intro line t out h
    by_cases hl : line = []
    · subst hl
      simp only [LineLoop, ne_eq, not_true_eq_false, if_false, Res.ok.injEq] at h
      exact ⟨[], by simp [h], Tokenizes.done⟩
    · obtain ⟨tok, line1, hb⟩ := LineBody_ok line
      simp only [LineLoop, ne_eq, hl, not_false_eq_true, if_true, hb] at h
      obtain ⟨ts, h1, h2⟩ := ih line1 (t ++ [tok]) out h
      exact ⟨tok :: ts, by simp [h1], Tokenizes.step hl hb h2⟩

theorem LineLoop_complete {line : Str} {ts : List Str} (h : Tokenizes line ts) :
    ∀ (fuel : Nat) (t : List Str), line.length ≤ fuel →
      LineLoop fuel line t = Res.ok (t ++ ts) := by
  induction h with
  | done =>
    intro fuel t _
    cases fuel <;> simp [LineLoop]
  | @step line tok line1 ts hne hb _ ih =>
    intro fuel t hf
    have hlt := LineBody_shorter line tok line1 hne hb
    cases fuel with
    | zero =>
      have : line.length = 0 := by omega
      exact absurd (List.length_eq_zero.mp this) hne
    | succ fuel =>
      simp only [LineLoop, ne_eq, hne, not_false_eq_true, if_true, hb]
      rw [ih fuel (t ++ [tok]) (by omega)]
      simp

theorem Tokenizes_total : ∀ (n : Nat) (line : Str), line.length ≤ n → ∃ ts, Tokenizes line ts := by
  intro n
  induction n with
  | zero =>
    intro line h
    have : line = [] := List.length_eq_zero.mp (by omega)
    subst this
    exact ⟨[], Tokenizes.done⟩
  | succ n ih =>
    intro line h
    by_cases hl : line = []
    · subst hl; exact ⟨[], Tokenizes.done⟩
    · obtain ⟨tok, line1, hb⟩ := LineBody_ok line
      have hlt := LineBody_shorter line tok line1 hl hb
      obtain ⟨ts, hts⟩ := ih line1 (by omega)
      exact ⟨tok :: ts, Tokenizes.step hl hb hts⟩

/-- The function `Line` returns `ts` exactly when the loop runs through the tokens `ts`. -/
theorem Line_iff (line : Str) (ts : List Str) : Line line = Res.ok ts ↔ Tokenizes line ts := by
  constructor
  · intro h
    obtain ⟨ts1, h1, h2⟩ := LineLoop_sound line.length line [] ts h
    simp only [List.nil_append] at h1
    subst h1
    exact h2
  · intro h
    have := LineLoop_complete h line.length [] (le_refl _)
    simpa [Line] using this

theorem Line_nil : Line [] = Res.ok [] := (Line_iff [] []).mpr Tokenizes.done

theorem Line_step {line tok line1 : Str} {ts : List Str} (hne : line ≠ [])
    (hb : LineBody line = Res.ok (tok, line1)) (h : Line line1 = Res.ok ts) :
    Line line = Res.ok (tok :: ts) :=
  (Line_iff _ _).mpr (Tokenizes.step hne hb ((Line_iff _ _).mp h))

theorem Line_total (line : Str) : ∃ ts, Line line = Res.ok ts := by
  obtain ⟨ts, h⟩ := Tokenizes_total line.length line (le_refl _)
  exact ⟨ts, (Line_iff _ _).mpr h⟩

/-! ## Quoted spans -/

/-- Scanning a body with doubled quotes followed by a closing quote returns the body decoded,
each ill-formed byte as U+FFFD, when the closing quote is followed by the end of the string or
by a space or tab. -/
theorem scanFrom_quoted (T : Str) :
    ∀ (r rest : Str), (rest = [] ∨ ∃ c rest1, rest = c :: rest1 ∧ (c = space ∨ c = tab)) →
      scanFrom (doubleQuotes T ++ dquote :: rest) false r = (r ++ replaceInvalid T, rest) := by
  induction T with
  | nil =>
    intro r rest h
    rcases h with h | ⟨c, rest1, h, hc⟩
    · subst h; simp [doubleQuotes, scanFrom, replaceInvalid]
    · subst h
      have hq : c ≠ dquote := by
        rcases hc with hc | hc
        · rw [hc]; exact fun e => dquote_ne_space e.symm
        · rw [hc]; exact fun e => dquote_ne_tab e.symm
      simp [doubleQuotes, scanFrom, hq, hc, replaceInvalid]
  | cons c T ih =>
    intro r rest h
    by_cases hc : c = dquote
    · subst hc
      simp only [doubleQuotes, if_true, List.cons_append]
      unfold scanFrom
      simp only [if_true, Bool.false_eq_true, if_false]
      unfold scanFrom
      simp only [if_true]
      rw [ih _ rest h]
      simp [replaceInvalid]
    · simp only [doubleQuotes, hc, if_false, List.cons_append]
      unfold scanFrom
      simp only [hc, if_false, Bool.false_eq_true, ite_self]
      rw [ih _ rest h]
      simp [replaceInvalid]

theorem intercalate_cons_cons (sep x y : Str) (l : List Str) :
    sep.intercalate (x :: y :: l) = x ++ (sep ++ sep.intercalate (y :: l)) := by
  simp [List.intercalate]

theorem TrimLeft_quoteToken_append (T rest : Str) :
    TrimLeft (quoteToken T ++ rest) [space, tab] = quoteToken T ++ rest := by
  have h : ¬ (decide (dquote ∈ [space, tab]) = true) := by decide
  exact List.dropWhile_cons_of_neg h

theorem TrimLeft_sep_cons (c : Item) (s : Str) (hc : c = space ∨ c = tab) :
    TrimLeft (c :: s) [space, tab] = TrimLeft s [space, tab] :=
  List.dropWhile_cons_of_pos (by simp only [decide_eq_true_eq]; exact (mem_seps c).mpr hc)

/-- The loop body on a closed quoted span followed by the end of the line or a separator. -/
theorem LineBody_quoteToken (T rest : Str)
    (h : rest = [] ∨ ∃ c rest1, rest = c :: rest1 ∧ (c = space ∨ c = tab)) :
    LineBody (quoteToken T ++ rest) = Res.ok (replaceInvalid T, TrimLeft rest [space, tab]) := by
  have e : quoteToken T ++ rest = dquote :: (doubleQuotes T ++ dquote :: rest) := by
    simp [quoteToken]
  rw [e, LineBody_quote, scanFrom_quoted T [] rest h]
  simp

theorem Line_intercalate_quoteToken (ts : List Str) :
    Line ([space].intercalate (ts.map quoteToken)) = Res.ok (ts.map replaceInvalid) := by
  induction ts with
  | nil => simpa [List.intercalate] using Line_nil
  | cons T ts ih =>
    cases ts with
    | nil =>
      have hb := LineBody_quoteToken T [] (Or.inl rfl)
      have hne : quoteToken T ++ [] ≠ [] := by simp [quoteToken]
      have := Line_step hne hb (by simpa [TrimLeft] using Line_nil)
      simpa [List.intercalate] using this
    | cons T1 ts =>
      have e : [space].intercalate ((T :: T1 :: ts).map quoteToken)
          = quoteToken T ++ (space :: [space].intercalate ((T1 :: ts).map quoteToken)) := by
        simp only [List.map_cons, intercalate_cons_cons]
        simp
      rw [e]
      have hb := LineBody_quoteToken T (space :: [space].intercalate ((T1 :: ts).map quoteToken))
        (Or.inr ⟨space, _, rfl, Or.inl rfl⟩)
      have hne : quoteToken T ++ (space :: [space].intercalate ((T1 :: ts).map quoteToken)) ≠ [] := by
        simp [quoteToken]
      have ht : TrimLeft (space :: [space].intercalate ((T1 :: ts).map quoteToken)) [space, tab]
          = [space].intercalate ((T1 :: ts).map quoteToken) := by
        rw [TrimLeft_sep_cons space _ (Or.inl rfl)]
        cases ts with
        | nil =>
          have := TrimLeft_quoteToken_append T1 []
          simpa [List.intercalate] using this
        | cons T2 ts =>
          simp only [List.map_cons, intercalate_cons_cons]
          exact TrimLeft_quoteToken_append T1 _
      rw [ht] at hb
      exact Line_step hne hb ih

/-! ## Lines without quote characters -/

theorem fieldsSpec_nil : fieldsSpec [] = [] := by
  simp [fieldsSpec]

theorem fieldsSpec_sep_cons (c : Item) (s : Str) (hc : c = space ∨ c = tab) :
    fieldsSpec (c :: s) = fieldsSpec s := by
  simp [fieldsSpec, List.splitOnP_cons, hc]

theorem fieldsSpec_TrimLeft (s : Str) : fieldsSpec (TrimLeft s [space, tab]) = fieldsSpec s := by
  induction s with
  | nil => rfl
  | cons c s ih =>
    by_cases hc : c = space ∨ c = tab
    · rw [TrimLeft_sep_cons c s hc, ih, fieldsSpec_sep_cons c s hc]
    · have : TrimLeft (c :: s) [space, tab] = c :: s :=
        List.dropWhile_cons_of_neg (by simp only [decide_eq_true_eq]; exact fun h => hc ((mem_seps c).mp h))
      rw [this]

/-- The first field: a non-empty word without separator, followed by the end of the line or by
a separator. -/
theorem fieldsSpec_word_append (w rest : Str) (hw : w ≠ [])
    (hns : ∀ c ∈ w, ¬ (c = space ∨ c = tab))
    (hrest : rest = [] ∨ ∃ c rest1, rest = c :: rest1 ∧ (c = space ∨ c = tab)) :
    fieldsSpec (w ++ rest) = w :: fieldsSpec rest := by
  have hp : ∀ x ∈ w, ¬ (fun c => decide (c = space ∨ c = tab)) x = true := by
    intro x hx
    simp only [decide_eq_true_eq]
    exact hns x hx
  rcases hrest with h | ⟨c, rest1, h, hc⟩
  · subst h
    have h1 : List.splitOnP (fun c => decide (c = space ∨ c = tab)) w = [w] :=
      List.splitOnP_eq_single _ w hp
    unfold fieldsSpec
    rw [List.append_nil, h1, List.splitOnP_nil]
    simp [hw]
  · subst h
    have h1 := List.splitOnP_first (fun c => decide (c = space ∨ c = tab)) w hp c
      (by simp only [decide_eq_true_eq]; exact hc) rest1
    rw [fieldsSpec_sep_cons c rest1 hc]
    unfold fieldsSpec
    rw [h1, List.filter_cons_of_pos (by simpa using hw)]

theorem dropWhile_notSep_shape (line : Str) :
    line.dropWhile (fun c => decide (c ∉ [space, tab])) = [] ∨
      ∃ c rest1, line.dropWhile (fun c => decide (c ∉ [space, tab])) = c :: rest1 ∧
        (c = space ∨ c = tab) := by
  cases h : line.dropWhile (fun c => decide (c ∉ [space, tab])) with
  | nil => exact Or.inl rfl
  | cons c rest1 =>
    refine Or.inr ⟨c, rest1, rfl, ?_⟩
    have hne : line.dropWhile (fun c => decide (c ∉ [space, tab])) ≠ [] := by
      rw [h]; exact List.cons_ne_nil _ _
    have := List.head_dropWhile_not (fun c => decide (c ∉ [space, tab])) line hne
    simp only [h, List.head_cons, decide_eq_false_iff_not, not_not] at this
    exact (mem_seps c).mp this

theorem Line_eq_fieldsSpec_aux : ∀ (n : Nat) (line : Str), line.length ≤ n → dquote ∉ line →
    line.head? ≠ some space → line.head? ≠ some tab → Line line = Res.ok (fieldsSpec line) := by
  intro n
  induction n with
  | zero =>
    intro line h _ _ _
    have : line = [] := List.length_eq_zero.mp (by omega)
    subst this
    simpa [fieldsSpec_nil] using Line_nil
  | succ n ih =>
    intro line hlen hq hsp htb
    cases line with
    | nil => simpa [fieldsSpec_nil] using Line_nil
    | cons c cs =>
      have hcq : c ≠ dquote := fun e => hq (by simp [e])
      have hcs : ¬ (c = space ∨ c = tab) := by
        rintro (e | e)
        · exact hsp (by simp [e])
        · exact htb (by simp [e])
      have hp : HasPrefix (c :: cs) [dquote] = false := by simp [HasPrefix_dquote_cons, hcq]
      have hb := LineBody_plain _ hp
      have hne : (c :: cs) ≠ [] := by simp
      have hlt := LineBody_shorter _ _ _ hne hb
      have htd := List.takeWhile_append_dropWhile (fun c => decide (c ∉ [space, tab])) (c :: cs)
      have hw : (c :: cs).takeWhile (fun c => decide (c ∉ [space, tab])) ≠ [] := by
        rw [List.takeWhile_cons_of_pos (by simp only [decide_eq_true_eq]; exact fun h => hcs ((mem_seps c).mp h))]
        simp
      have hns : ∀ x ∈ (c :: cs).takeWhile (fun c => decide (c ∉ [space, tab])),
          ¬ (x = space ∨ x = tab) := by
        intro x hx
        have := List.mem_takeWhile_imp hx
        simp only [decide_eq_true_eq] at this
        exact fun h => this ((mem_seps x).mpr h)
      have hf := fieldsSpec_word_append _ _ hw hns (dropWhile_notSep_shape (c :: cs))
      rw [htd] at hf
      rw [hf, ← fieldsSpec_TrimLeft]
      apply Line_step hne hb
      have hsuf : TrimLeft ((c :: cs).dropWhile (fun c => decide (c ∉ [space, tab]))) [space, tab]
          <:+ (c :: cs) := (TrimLeft_suffix _ _).trans (List.dropWhile_suffix _)
      apply ih
      · simp only [List.length_cons] at hlt hlen; omega
      · exact fun h => hq (hsuf.subset h)
      · intro h
        have hne2 : TrimLeft ((c :: cs).dropWhile (fun c => decide (c ∉ [space, tab]))) [space, tab] ≠ [] := by
          intro e; rw [e] at h; simp at h
        have := List.head_dropWhile_not (fun c => decide (c ∈ [space, tab])) _ hne2
        rw [List.head?_eq_head hne2] at h
        simp only [TrimLeft, Option.some.injEq] at h
        rw [h] at this
        simp at this
      · intro h
        have hne2 : TrimLeft ((c :: cs).dropWhile (fun c => decide (c ∉ [space, tab]))) [space, tab] ≠ [] := by
          intro e; rw [e] at h; simp at h
        have := List.head_dropWhile_not (fun c => decide (c ∈ [space, tab])) _ hne2
        rw [List.head?_eq_head hne2] at h
        simp only [TrimLeft, Option.some.injEq] at h
        rw [h] at this
        simp at this

/-- On a line without quote character that does not begin with a space or a tab, `Line`
returns the fields of the line: the line split on runs of spaces/tabs, empty fields dropped. -/
theorem Line_eq_fieldsSpec (line : Str) (hq : dquote ∉ line)
    (hsp : line.head? ≠ some space) (htb : line.head? ≠ some tab) :
    Line line = Res.ok (fieldsSpec line) :=
  Line_eq_fieldsSpec_aux line.length line (le_refl _) hq hsp htb

/-- A non-empty line of spaces and tabs only gives one empty token. -/
theorem Line_blank (c : Item) (cs : Str) (h : ∀ x ∈ c :: cs, x = space ∨ x = tab) :
    Line (c :: cs) = Res.ok [[]] := by
  have hc : c = space ∨ c = tab := h c (by simp)
  have hcq : c ≠ dquote := by
    rcases hc with e | e
    · rw [e]; exact fun e2 => dquote_ne_space e2.symm
    · rw [e]; exact fun e2 => dquote_ne_tab e2.symm
  have hp : HasPrefix (c :: cs) [dquote] = false := by simp [HasPrefix_dquote_cons, hcq]
  have hb := LineBody_plain _ hp
  have ht : (c :: cs).takeWhile (fun c => decide (c ∉ [space, tab])) = [] :=
    List.takeWhile_cons_of_neg (by simp only [decide_eq_true_eq, not_not]; exact (mem_seps c).mpr hc)
  have hd : (c :: cs).dropWhile (fun c => decide (c ∉ [space, tab])) = c :: cs :=
    List.dropWhile_cons_of_neg (by simp only [decide_eq_true_eq, not_not]; exact (mem_seps c).mpr hc)
  have htl : TrimLeft (c :: cs) [space, tab] = [] :=
    List.dropWhile_eq_nil_iff.mpr (fun x hx => by
      simp only [decide_eq_true_eq]; exact (mem_seps x).mpr (h x hx))
  rw [ht, hd, htl] at hb
  exact Line_step (by simp) hb Line_nil

/-! ## Token texts joined by separators -/

theorem TrimLeft_sepRun_append (sep x : Str) (h : ∀ c ∈ sep, c = space ∨ c = tab) :
    TrimLeft (sep ++ x) [space, tab] = TrimLeft x [space, tab] := by
  induction sep with
  | nil => rfl
  | cons c sep ih =>
    have hc := h c (by simp)
    rw [List.cons_append, TrimLeft_sep_cons c _ hc]
    exact ih (fun d hd => h d (List.mem_cons_of_mem _ hd))

theorem TrimLeft_cons_of_not_sep (c : Item) (x : Str) (hc : ¬ (c = space ∨ c = tab)) :
    TrimLeft (c :: x) [space, tab] = c :: x :=
  List.dropWhile_cons_of_neg (by simp only [decide_eq_true_eq]; exact fun h => hc ((mem_seps c).mp h))

/-- A token text begins with a character that is not a separator. -/
theorem Decodes_head {w t : Str} (h : Decodes w t) :
    ∃ c w1, w = c :: w1 ∧ ¬ (c = space ∨ c = tab) := by
  rcases h with ⟨⟨hne, hns, _⟩, _⟩ | ⟨T, h, _⟩
  · cases w with
    | nil => exact absurd rfl hne
    | cons c w1 =>
      refine ⟨c, w1, rfl, ?_⟩
      have := hns c (by simp)
      rintro (e | e)
      · exact this.1 e
      · exact this.2 e
  · refine ⟨dquote, doubleQuotes T ++ [dquote], h, ?_⟩
    rintro (e | e)
    · exact dquote_ne_space e
    · exact dquote_ne_tab e

/-- The loop body on a token text followed by the end of the line or a separator. -/
theorem LineBody_token_text {w t : Str} (h : Decodes w t) (rest : Str)
    (hrest : rest = [] ∨ ∃ c rest1, rest = c :: rest1 ∧ (c = space ∨ c = tab)) :
    LineBody (w ++ rest) = Res.ok (t, TrimLeft rest [space, tab]) := by
  rcases h with ⟨⟨hne, hns, hq⟩, ht⟩ | h
  · subst ht
    have hp : HasPrefix (t ++ rest) [dquote] = false := by
      cases t with
      | nil => exact absurd rfl hne
      | cons c w1 =>
        have hc : c ≠ dquote := fun e => hq (by simp [e])
        simp [HasPrefix_dquote_cons, hc]
    have hall : ∀ a ∈ t, (fun c => decide (c ∉ [space, tab])) a = true := by
      intro a ha
      simp only [decide_eq_true_eq]
      intro hm
      rcases (mem_seps a).mp hm with e | e
      · exact (hns a ha).1 e
      · exact (hns a ha).2 e
    have hrt : rest.takeWhile (fun c => decide (c ∉ [space, tab])) = [] ∧
        rest.dropWhile (fun c => decide (c ∉ [space, tab])) = rest := by
      rcases hrest with e | ⟨c, rest1, e, hc⟩
      · subst e; exact ⟨rfl, rfl⟩
      · subst e
        have hn : ¬ (decide (c ∉ [space, tab]) = true) := by
          simp only [decide_eq_true_eq, not_not]; exact (mem_seps c).mpr hc
        exact ⟨List.takeWhile_cons_of_neg hn, List.dropWhile_cons_of_neg hn⟩
    rw [LineBody_plain _ hp, List.takeWhile_append_of_pos hall, List.dropWhile_append_of_pos hall,
      hrt.1, hrt.2, List.append_nil]
  · obtain ⟨T, hw, ht⟩ := h
    subst hw ht
    exact LineBody_quoteToken T rest hrest

theorem joinWith_head (w : Str) (ws seps : List Str) :
    ∃ y, joinWith (w :: ws) seps = w ++ y := by
  cases ws with
  | nil => exact ⟨[], by simp [joinWith]⟩
  | cons w1 ws =>
    cases seps with
    | nil => exact ⟨_, rfl⟩
    | cons sep seps => exact ⟨_, rfl⟩

/-- On token texts joined by separators, `Line` returns the tokens the texts stand for. -/
theorem Line_joinWith {texts ts : List Str} (h : List.Forall₂ Decodes texts ts) :
    ∀ seps : List Str, seps.length + 1 = texts.length → (∀ s ∈ seps, isSepRun s) →
      Line (joinWith texts seps) = Res.ok ts := by
  induction h with
  | nil => intro seps hl _; simp at hl
  | @cons w t ws ts hd htl ih =>
    intro seps hl hs
    obtain ⟨c, w1, hw, _⟩ := Decodes_head hd
    cases htl with
    | nil =>
      have hb := LineBody_token_text hd [] (Or.inl rfl)
      rw [List.append_nil] at hb
      have e : joinWith [w] seps = w := by simp [joinWith]
      rw [e]
      exact Line_step (by rw [hw]; exact List.cons_ne_nil _ _) hb Line_nil
    | @cons w2 t2 ws2 ts2 hd2 htl2 =>
      cases seps with
      | nil => simp at hl
      | cons sep seps =>
        have hsep := hs sep (by simp)
        obtain ⟨y, hy⟩ := joinWith_head w2 ws2 seps
        obtain ⟨c2, w3, hw2, hc2⟩ := Decodes_head hd2
        have hshape : (sep ++ joinWith (w2 :: ws2) seps) = [] ∨
            ∃ c rest1, (sep ++ joinWith (w2 :: ws2) seps) = c :: rest1 ∧ (c = space ∨ c = tab) := by
          cases hsp : sep with
          | nil => exact absurd hsp hsep.1
          | cons d sep1 =>
            exact Or.inr ⟨d, _, rfl, hsep.2 d (by rw [hsp]; simp)⟩
        have hb := LineBody_token_text hd _ hshape
        have htrim : TrimLeft (sep ++ joinWith (w2 :: ws2) seps) [space, tab]
            = joinWith (w2 :: ws2) seps := by
          rw [TrimLeft_sepRun_append _ _ hsep.2, hy, hw2]
          exact TrimLeft_cons_of_not_sep c2 _ hc2
        rw [htrim] at hb
        have hrec := ih seps (by simpa using hl) (fun s hm => hs s (List.mem_cons_of_mem _ hm))
        have e : joinWith (w :: w2 :: ws2) (sep :: seps) = w ++ (sep ++ joinWith (w2 :: ws2) seps) := rfl
        rw [e]
        exact Line_step (by rw [hw]; simp) hb hrec

theorem exists_Decodes (texts : List Str) (h : ∀ w ∈ texts, isTokenText w) :
    ∃ ts, List.Forall₂ Decodes texts ts := by
  induction texts with
  | nil => exact ⟨[], List.Forall₂.nil⟩
  | cons w ws ih =>
    obtain ⟨ts, hts⟩ := ih (fun x hx => h x (List.mem_cons_of_mem _ hx))
    rcases h w (by simp) with hp | ⟨T, hT⟩
    · exact ⟨w :: ts, List.Forall₂.cons (Or.inl ⟨hp, rfl⟩) hts⟩
    · exact ⟨replaceInvalid T :: ts, List.Forall₂.cons (Or.inr ⟨T, hT, rfl⟩) hts⟩

/-! ## Character accounting -/

theorem isKept_dquote : isKept dquote = false := by decide

theorem isKept_sep (c : Item) (hc : c = space ∨ c = tab) : isKept c = false := by
  rcases hc with e | e <;> subst e <;> decide

theorem filter_isKept_TrimLeft (s : Str) :
    (TrimLeft s [space, tab]).filter isKept = s.filter isKept := by
  induction s with
  | nil => rfl
  | cons c s ih =>
    by_cases hc : c = space ∨ c = tab
    · rw [TrimLeft_sep_cons c s hc, ih, List.filter_cons_of_neg (by simp [isKept_sep c hc])]
    · rw [TrimLeft_cons_of_not_sep c s hc]

/-- On a well-formed body, the token and the remainder returned by the scanner keep the order
of the scanned characters, and lose only quotes. -/
theorem scanFrom_account (cs : Str) :
    WellFormed cs → ∀ prevquote : Bool,
      ((scanFrom cs prevquote []).1 ++ (scanFrom cs prevquote []).2).Sublist cs ∧
      ((scanFrom cs prevquote []).1 ++ (scanFrom cs prevquote []).2).filter isKept
        = cs.filter isKept := by
  induction cs with
  | nil => intro _ prevquote; simp [scanFrom]
  | cons c cs ih =>
    intro hwf prevquote
    have hcc : c.copied = c := hwf c (by simp)
    have ih := ih (fun it hit => hwf it (List.mem_cons_of_mem _ hit))
    unfold scanFrom
    rw [hcc]
    split_ifs with h1 h2 h3 h4
    · rw [scanFrom_acc cs false ([] ++ [c])]
      obtain ⟨ha, hb⟩ := ih false
      subst h1
      refine ⟨?_, ?_⟩
      · simpa using ha
      · simpa [List.filter_cons, isKept_dquote] using hb
    · obtain ⟨ha, hb⟩ := ih true
      subst h1
      refine ⟨List.Sublist.cons _ ha, ?_⟩
      simpa [List.filter_cons, isKept_dquote] using hb
    · simp
    · rw [scanFrom_acc cs prevquote ([] ++ [c])]
      obtain ⟨ha, hb⟩ := ih prevquote
      refine ⟨?_, ?_⟩
      · simpa using ha
      · simpa [List.filter_cons, isKept_sep c h3] using hb
    · rw [scanFrom_acc cs prevquote ([] ++ [c])]
      obtain ⟨ha, hb⟩ := ih prevquote
      refine ⟨?_, ?_⟩
      · simpa using ha
      · have hk : isKept c = true := by
          simp only [isKept, decide_eq_true_eq]
          exact ⟨h1, fun e => h3 (Or.inl e), fun e => h3 (Or.inr e)⟩
        simpa [List.filter_cons, hk] using hb

/-- One iteration of the loop: the token followed by the untrimmed remainder keeps the order
of the characters of the line and every character other than quote, space and tab. -/
theorem LineBody_account (line tok line1 : Str) (hwf : WellFormed line)
    (hb : LineBody line = Res.ok (tok, line1)) :
    ∃ rest, line1 = TrimLeft rest [space, tab] ∧ (tok ++ rest).Sublist line ∧
      (tok ++ rest).filter isKept = line.filter isKept := by
  cases hp : HasPrefix line [dquote]
  · rw [LineBody_plain line hp] at hb
    injection hb with hb
    injection hb with h1 h2
    refine ⟨_, h2.symm, ?_, ?_⟩
    · rw [← h1, List.takeWhile_append_dropWhile]
    · rw [← h1, List.takeWhile_append_dropWhile]
  · cases line with
    | nil => simp [HasPrefix_nil] at hp
    | cons c cs =>
      have hc : c = dquote := by simpa [HasPrefix_dquote_cons] using hp
      subst hc
      rw [LineBody_quote] at hb
      injection hb with hb
      injection hb with h1 h2
      obtain ⟨ha, hf⟩ := scanFrom_account cs
        (fun it hit => hwf it (List.mem_cons_of_mem _ hit)) false
      refine ⟨_, h2.symm, ?_, ?_⟩
      · rw [← h1]; exact List.Sublist.cons _ ha
      · rw [← h1, hf, List.filter_cons_of_neg (by simp [isKept_dquote])]

theorem Tokenizes_account {line : Str} {ts : List Str} (h : Tokenizes line ts) :
    WellFormed line →
      ts.flatten.Sublist line ∧ ts.flatten.filter isKept = line.filter isKept := by
  induction h with
  | done => intro _; simp
  | @step line tok line1 ts _ hb _ ih =>
    intro hwf
    obtain ⟨rest, h1, h2, h3⟩ := LineBody_account line tok line1 hwf hb
    subst h1
    have hwf1 : WellFormed (TrimLeft rest [space, tab]) := by
      intro it hit
      have h4 : it ∈ rest := (TrimLeft_suffix _ _).subset hit
      exact hwf it (h2.subset (List.mem_append_right _ h4))
    obtain ⟨iha, ihb⟩ := ih hwf1
    refine ⟨?_, ?_⟩
    · rw [List.flatten_cons]
      exact ((List.Sublist.refl tok).append (iha.trans (TrimLeft_suffix _ _).sublist)).trans h2
    · rw [List.flatten_cons, List.filter_append, ihb, filter_isKept_TrimLeft, ← List.filter_append, h3]

/-! ## Tokens of lines without quote characters -/

theorem Tokenizes_no_sep {line : Str} {ts : List Str} (h : Tokenizes line ts) :
    dquote ∉ line → ∀ t ∈ ts, space ∉ t ∧ tab ∉ t := by
  induction h with
  | done => intro _ t ht; simp at ht
  | @step line tok line1 ts hne hb _ ih =>
    intro hq t ht
    have hp : HasPrefix line [dquote] = false := by
      cases line with
      | nil => exact HasPrefix_nil
      | cons c cs =>
        have hc : c ≠ dquote := fun e => hq (by simp [e])
        simp [HasPrefix_dquote_cons, hc]
    rw [LineBody_plain line hp] at hb
    injection hb with hb
    injection hb with h1 h2
    rcases List.mem_cons.mp ht with e | hm
    · subst e
      subst h1
      constructor
      · intro hx
        have := List.mem_takeWhile_imp hx
        simp at this
      · intro hx
        have := List.mem_takeWhile_imp hx
        simp at this
    · apply ih _ t hm
      have hsuf : line1 <:+ line := by
        rw [← h2]
        exact (TrimLeft_suffix _ _).trans (List.dropWhile_suffix _)
      exact fun hx => hq (hsuf.subset hx)

/-! ## The reader -/

theorem Trim_dropCR (l : Str) : Trim (dropCR l) [space, tab, cr] = Trim l [space, tab, cr] := by
  unfold dropCR
  split_ifs with h
  · obtain ⟨l1, hl⟩ : ∃ l1, l = l1 ++ [cr] := by
      rcases List.eq_nil_or_concat l with e | ⟨l1, b, e⟩
      · subst e; simp at h
      · subst e
        have hb : b = cr := by simpa using h
        exact ⟨l1, by rw [hb]; simp⟩
    subst hl
    have hcr : (fun c => decide (c ∈ [space, tab, cr])) cr = true := by decide
    rw [List.dropLast_concat]
    unfold Trim TrimRight TrimLeft
    rw [List.dropWhile_append]
    split_ifs with he
    · have e1 : List.dropWhile (fun c => decide (c ∈ [space, tab, cr])) l1 = [] :=
        List.isEmpty_iff.mp he
      have e2 : List.dropWhile (fun c => decide (c ∈ [space, tab, cr])) [cr] = [] :=
        List.dropWhile_cons_of_pos hcr
      rw [e1, e2]
    · exact (List.rdropWhile_concat_pos (fun c => decide (c ∈ [space, tab, cr])) _ cr hcr).symm
  · rfl

theorem readerLoop_congr (a b : Str) (more : List Str) (r : List (List Str))
    (h : Trim a [space, tab, cr] = Trim b [space, tab, cr]) :
    readerLoop (a :: more) r = readerLoop (b :: more) r := by
  simp only [readerLoop, h]

theorem readerLoop_nil_line (more : List Str) (r : List (List Str)) :
    readerLoop ([] :: more) r = readerLoop more r := by
  have : Trim [] [space, tab, cr] = [] := rfl
  simp [readerLoop, this]

/-- The newline-delimited lines of `text`, the first one continuing the characters `cur`. -/
theorem splitOn_newline_cons (c : Item) (rest : Str) :
    (c :: rest).splitOn newline
      = if c = newline then [] :: rest.splitOn newline
        else (rest.splitOn newline).modifyHead (List.cons c) := by
  unfold List.splitOn
  rw [List.splitOnP_cons]
  by_cases h : c = newline <;> simp [h]

/-- Running the loop of `reader` over the tokens of the scanner is running it over the
newline-delimited lines, when every line fits in the buffer of the scanner. -/
theorem readerLoop_scanLines (text : Str) :
    ∀ (cur : Str) (r : List (List Str)),
      (∀ l ∈ (text.splitOn newline).modifyHead (fun h => cur ++ h), byteLen l < MaxScanTokenSize) →
      (scanLines cur text).2 = none ∧
      readerLoop (scanLines cur text).1 r
        = readerLoop ((text.splitOn newline).modifyHead (fun h => cur ++ h)) r := by
  induction text with
  | nil =>
    intro cur r hfit
    have e : ([] : Str).splitOn newline = [[]] := by simp [List.splitOn]
    rw [e] at hfit ⊢
    simp only [List.modifyHead_cons, List.append_nil, List.mem_singleton, forall_eq] at hfit ⊢
    unfold scanLines
    by_cases hc : cur = []
    · subst hc
      simp [readerLoop_nil_line]
    · have hn : ¬ MaxScanTokenSize ≤ byteLen cur := by omega
      simp only [hc, if_false, hn, true_and]
      exact readerLoop_congr _ _ _ _ (Trim_dropCR cur)
  | cons c rest ih =>
    intro cur r hfit
    rw [splitOn_newline_cons] at hfit ⊢
    unfold scanLines
    by_cases hc : c = newline
    · simp only [hc, if_true, List.modifyHead_cons, List.append_nil] at hfit ⊢
      have hn : ¬ MaxScanTokenSize ≤ byteLen cur := by
        have := hfit cur (by simp)
        omega
      simp only [hn, if_false]
      have hrest : ∀ l ∈ (rest.splitOn newline).modifyHead (fun h => [] ++ h),
          byteLen l < MaxScanTokenSize := by
        intro l hl
        have e : (rest.splitOn newline).modifyHead (fun h => [] ++ h) = rest.splitOn newline := by
          cases rest.splitOn newline <;> simp
        rw [e] at hl
        exact hfit l (List.mem_cons_of_mem _ hl)
      have e : (rest.splitOn newline).modifyHead (fun h => [] ++ h) = rest.splitOn newline := by
        cases rest.splitOn newline <;> simp
      refine ⟨(ih [] r hrest).1, ?_⟩
      rw [readerLoop_congr _ _ _ _ (Trim_dropCR cur)]
      unfold readerLoop
      simp only []
      split_ifs
      · have := (ih [] r hrest).2
        rw [e] at this
        exact this
      · cases Line (Trim cur [space, tab, cr]) with
        | fault e1 => rfl
        | ok toks =>
          have := (ih [] (r ++ [toks]) hrest).2
          rw [e] at this
          exact this
    · simp only [hc, if_false] at hfit ⊢
      have e : ((rest.splitOn newline).modifyHead (List.cons c)).modifyHead (fun h => cur ++ h)
          = (rest.splitOn newline).modifyHead (fun h => (cur ++ [c]) ++ h) := by
        cases rest.splitOn newline <;> simp
      rw [e] at hfit ⊢
      exact ih (cur ++ [c]) r hfit

theorem HasPrefix_hash_iff (s : Str) : HasPrefix s [hash] = true ↔ s.head? = some hash := by
  cases s with
  | nil => simp [HasPrefix, List.isPrefixOf]
  | cons c cs =>
    simp only [HasPrefix, List.isPrefixOf, Bool.and_true, beq_iff_eq, List.head?_cons,
      Option.some.injEq]
    exact eq_comm

/-- The loop of `reader` over a list of lines appends the tokens of the qualifying ones. -/
theorem readerLoop_spec (lines : List Str) :
    ∀ r : List (List Str), ∃ rs, readerLoop lines r = Res.ok (r ++ rs) ∧
      List.Forall₂ (fun l toks => Line l = Res.ok toks)
        ((lines.map (fun l => Trim l [space, tab, cr])).filter
          (fun l => decide (l ≠ [] ∧ l.head? ≠ some hash))) rs := by
  induction lines with
  | nil => intro r; exact ⟨[], by simp [readerLoop], by simp⟩
  | cons l lines ih =>
    intro r
    by_cases hq : (Trim l [space, tab, cr]) ≠ [] ∧ (Trim l [space, tab, cr]).head? ≠ some hash
    · obtain ⟨toks, ht⟩ := Line_total (Trim l [space, tab, cr])
      obtain ⟨rs, h1, h2⟩ := ih (r ++ [toks])
      refine ⟨toks :: rs, ?_, ?_⟩
      · have hskip : ¬ (HasPrefix (Trim l [space, tab, cr]) [hash] = true ∨
            Trim l [space, tab, cr] = []) := by
          rintro (h | h)
          · exact hq.2 ((HasPrefix_hash_iff _).mp h)
          · exact hq.1 h
        simp only [readerLoop, hskip, if_false, ht, h1]
        simp
      · rw [List.map_cons, List.filter_cons_of_pos (by simpa using hq)]
        exact List.Forall₂.cons ht h2
    · obtain ⟨rs, h1, h2⟩ := ih r
      refine ⟨rs, ?_, ?_⟩
      · have hskip : HasPrefix (Trim l [space, tab, cr]) [hash] = true ∨
            Trim l [space, tab, cr] = [] := by
          by_cases he : Trim l [space, tab, cr] = []
          · exact Or.inr he
          · left
            apply (HasPrefix_hash_iff _).mpr
            by_contra hh
            exact hq ⟨he, hh⟩
        simp only [readerLoop, hskip, if_true, h1]
      · rw [List.map_cons, List.filter_cons_of_neg (by simpa using hq)]
        exact h2

/-- Without read error and with every line fitting in the scanner's buffer, `reader` returns
the tokens of the qualifying lines, in order, and no error. -/
theorem reader_spec (text : Str)
    (hfit : ∀ l ∈ text.splitOn newline, byteLen l < MaxScanTokenSize) :
    ∃ r, reader text = Res.ok (r, none) ∧
      List.Forall₂ (fun l toks => Line l = Res.ok toks) (qualifyingLines text) r := by
  have e : (text.splitOn newline).modifyHead (fun h => [] ++ h) = text.splitOn newline := by
    cases text.splitOn newline <;> simp
  have hs := readerLoop_scanLines text [] [] (by rw [e]; exact hfit)
  rw [e] at hs
  obtain ⟨rs, h1, h2⟩ := readerLoop_spec (text.splitOn newline) []
  refine ⟨rs, ?_, h2⟩
  unfold reader
  rw [hs.2, h1, hs.1]
  rfl

theorem scanLines_no_newline (text : Str) :
    ∀ cur : Str, newline ∉ text → scanLines cur text = scanLines (cur ++ text) [] := by
  induction text with
  | nil => intro cur _; simp
  | cons c text ih =>
    intro cur h
    have hc : c ≠ newline := fun e => h (by simp [e])
    have ht : newline ∉ text := fun hm => h (List.mem_cons_of_mem _ hm)
    have := ih (cur ++ [c]) ht
    simp only [List.append_assoc, List.singleton_append] at this
    rw [← this]
    conv_lhs => unfold scanLines
    simp only [hc, if_false]

theorem byteLen_replicate_a (n : Nat) : byteLen (List.replicate n (Item.chr 'a')) = n := by
  induction n with
  | zero => rfl
  | succ n ih =>
    have h1 : Item.size (Item.chr 'a') = 1 := by decide
    unfold byteLen at ih ⊢
    rw [List.replicate_succ, List.map_cons, List.sum_cons, ih, h1]
    omega

theorem longLine_eq_cons :
    longLine = Item.chr 'a' :: List.replicate (MaxScanTokenSize - 1) (Item.chr 'a') := by
  unfold longLine
  have : MaxScanTokenSize = (MaxScanTokenSize - 1) + 1 := by decide
  conv_lhs => rw [this]
  exact List.replicate_succ _ _

theorem newline_not_mem_longLine : newline ∉ longLine := by
  intro h
  have := List.eq_of_mem_replicate h
  exact absurd this (by decide)

theorem scanLines_too_long (cur : Str) (hne : cur ≠ []) (hlen : MaxScanTokenSize ≤ byteLen cur) :
    scanLines cur [] = ([], some ScanError.ErrTooLong) := by
  unfold scanLines
  simp only [hne, if_false, hlen, if_true]

theorem reader_of_no_token (text : Str) (e : Option ScanError)
    (h : scanLines [] text = ([], e)) : reader text = Res.ok ([], e) := by
  unfold reader
  rw [h]
  rfl

theorem byteLen_longLine : byteLen longLine = MaxScanTokenSize :=
  byteLen_replicate_a MaxScanTokenSize

/-- The scanner refuses a line of `MaxScanTokenSize` bytes: `reader` returns no entry and the
error `ErrTooLong`. -/
theorem reader_longLine : reader longLine = Res.ok ([], some ScanError.ErrTooLong) := by
  have h1 := scanLines_no_newline longLine [] newline_not_mem_longLine
  rw [List.nil_append] at h1
  have hne : longLine ≠ [] := by rw [longLine_eq_cons]; exact List.cons_ne_nil _ _
  have hlen : MaxScanTokenSize ≤ byteLen longLine := le_of_eq byteLen_longLine.symm
  exact reader_of_no_token longLine _ (h1.trans (scanLines_too_long longLine hne hlen))

theorem qualifyingLines_longLine : qualifyingLines longLine = [longLine] := by
  have hsplit : longLine.splitOn newline = [longLine] := by
    unfold List.splitOn
    apply List.splitOnP_eq_single
    intro x hx
    have := List.eq_of_mem_replicate hx
    rw [this]
    decide
  have hnot : ¬ (decide (Item.chr 'a' ∈ [space, tab, cr]) = true) := by decide
  have htl : TrimLeft longLine [space, tab, cr] = longLine := by
    rw [longLine_eq_cons]
    exact List.dropWhile_cons_of_neg hnot
  have htr : TrimRight longLine [space, tab, cr] = longLine := by
    unfold TrimRight List.rdropWhile
    have hrev : longLine.reverse = longLine := by
      unfold longLine; exact List.reverse_replicate _ _
    rw [hrev]
    have : List.dropWhile (fun c => decide (c ∈ [space, tab, cr])) longLine = longLine := htl
    rw [this, hrev]
  have htrim : Trim longLine [space, tab, cr] = longLine := by
    unfold Trim; rw [htl, htr]
  unfold qualifyingLines
  rw [hsplit, List.map_cons, List.map_nil, htrim]
  apply List.filter_cons_of_pos
  rw [longLine_eq_cons]
  decide

theorem doubleQuotes_no_quote (T : Str) (h : dquote ∉ T) : doubleQuotes T = T := by
  induction T with
  | nil => rfl
  | cons c T ih =>
    have hc : c ≠ dquote := fun e => h (by simp [e])
    have hT : dquote ∉ T := fun hm => h (List.mem_cons_of_mem _ hm)
    simp [doubleQuotes, hc, ih hT]

/-! ## Errors and entries of the reader -/

/-- The scanner reports no error exactly when every line fits in its buffer. -/
theorem scanLines_err_iff (text : Str) :
    ∀ cur : Str, (scanLines cur text).2 = none ↔
      ∀ l ∈ (text.splitOn newline).modifyHead (fun h => cur ++ h), byteLen l < MaxScanTokenSize := by
  induction text with
  | nil =>
    intro cur
    have e : ([] : Str).splitOn newline = [[]] := by simp [List.splitOn]
    rw [e]
    simp only [List.modifyHead_cons, List.append_nil, List.mem_singleton, forall_eq]
    unfold scanLines
    by_cases hc : cur = []
    · subst hc
      simp only [if_true, true_iff]
      decide
    · by_cases hn : MaxScanTokenSize ≤ byteLen cur
      · simp only [hc, if_false, hn, if_true]
        constructor
        · intro h; cases h
        · intro h; omega
      · simp only [hc, if_false, hn, true_iff]
        omega
  | cons c rest ih =>
    intro cur
    rw [splitOn_newline_cons]
    unfold scanLines
    by_cases hc : c = newline
    · simp only [hc, if_true, List.modifyHead_cons, List.append_nil, List.mem_cons, forall_eq_or_imp]
      have e : (rest.splitOn newline).modifyHead (fun h => [] ++ h) = rest.splitOn newline := by
        cases rest.splitOn newline <;> simp
      have hrec := ih []
      rw [e] at hrec
      by_cases hn : MaxScanTokenSize ≤ byteLen cur
      · simp only [hn, if_true]
        constructor
        · intro h; cases h
        · intro h; omega
      · simp only [hn, if_false, hrec]
        constructor
        · intro h; exact ⟨by omega, h⟩
        · intro h; exact h.2
    · simp only [hc, if_false]
      have e : ((rest.splitOn newline).modifyHead (List.cons c)).modifyHead (fun h => cur ++ h)
          = (rest.splitOn newline).modifyHead (fun h => (cur ++ [c]) ++ h) := by
        cases rest.splitOn newline <;> simp
      rw [e]
      exact ih (cur ++ [c])

/-- The function `reader` never faults: it returns entries and the error of the scanner. -/
theorem reader_ok (text : Str) : ∃ r, reader text = Res.ok (r, (scanLines [] text).2) := by
  obtain ⟨rs, h1, _⟩ := readerLoop_spec (scanLines [] text).1 []
  refine ⟨rs, ?_⟩
  unfold reader
  rw [h1]
  rfl

theorem Line_eq_nil_iff (line : Str) : Line line = Res.ok [] ↔ line = [] := by
  constructor
  · intro h
    cases (Line_iff _ _).mp h
    rfl
  · intro h
    subst h
    exact Line_nil

/-- Every entry that the loop of `reader` appends holds at least one token. -/
theorem readerLoop_entries (toks : List Str) (r0 r : List (List Str))
    (h : readerLoop toks r0 = Res.ok r) (h0 : ∀ x ∈ r0, x ≠ []) : ∀ x ∈ r, x ≠ [] := by
  obtain ⟨rs, h1, h2⟩ := readerLoop_spec toks r0
  rw [h1] at h
  injection h with h
  subst h
  have key : ∀ (ls : List Str) (rs : List (List Str)),
      List.Forall₂ (fun l ts => Line l = Res.ok ts) ls rs → (∀ l ∈ ls, l ≠ []) →
      ∀ x ∈ rs, x ≠ [] := by
    intro ls rs hf
    induction hf with
    | nil => intro _ x hx; simp at hx
    | @cons l ts ls rs hl _ ih =>
      intro hne x hx
      rcases List.mem_cons.mp hx with e | hx
      · subst e
        intro hx0
        rw [hx0] at hl
        exact hne l (by simp) ((Line_eq_nil_iff l).mp hl)
      · exact ih (fun l1 hl1 => hne l1 (List.mem_cons_of_mem _ hl1)) x hx
  intro x hx
  rcases List.mem_append.mp hx with hx | hx
  · exact h0 x hx
  · refine key _ rs h2 ?_ x hx
    intro l hl
    have := (List.mem_filter.mp hl).2
    simp only [decide_eq_true_eq] at this
    exact this.1

/-! ## Steps of the scanner and of the loop -/

/-- An ordinary character met while a quote is pending is appended and leaves the flag set. -/
theorem parsequotedstringLoop_ordinary (s : Str) (i : Nat) (c : Item) (cs : Str)
    (r : List Char) (prevquote : Bool) (hq : c ≠ dquote) (hs : c ≠ space) (ht : c ≠ tab) :
    parsequotedstringLoop s i (c :: cs) prevquote r
      = parsequotedstringLoop s (i + 1) cs prevquote (r ++ [c.rune]) := by
  conv_lhs => unfold parsequotedstringLoop
  simp only [rune_eq_quoteRune, rune_eq_spaceRune, rune_eq_tabRune, hq, hs, ht, or_self,
    if_false]

theorem scanFrom_no_quote_append (A : Str) (hA : dquote ∉ A) :
    ∀ (X r : Str), scanFrom (A ++ X) false r = scanFrom X false (r ++ replaceInvalid A) := by
  induction A with
  | nil => intro X r; simp [replaceInvalid_nil]
  | cons c A ih =>
    intro X r
    have hc : c ≠ dquote := fun e => hA (by simp [e])
    have hA2 : dquote ∉ A := fun h => hA (List.mem_cons_of_mem _ h)
    rw [List.cons_append]
    conv_lhs => unfold scanFrom
    simp only [hc, if_false, Bool.false_eq_true, ite_self, ih hA2]
    simp [replaceInvalid_cons]

/-- After the closing quote, ordinary characters are appended and the next space or tab ends
the scan. -/
theorem scanFrom_pending_word (B : Str) (hB : ∀ c ∈ B, c ≠ dquote ∧ c ≠ space ∧ c ≠ tab)
    (w : Item) (hw : w = space ∨ w = tab) (rest : Str) :
    ∀ r : Str, scanFrom (B ++ w :: rest) true r = (r ++ replaceInvalid B, w :: rest) := by
  induction B with
  | nil =>
    intro r
    have hq : w ≠ dquote := by
      rcases hw with e | e
      · rw [e]; exact fun e2 => dquote_ne_space e2.symm
      · rw [e]; exact fun e2 => dquote_ne_tab e2.symm
    simp [scanFrom, hq, hw, replaceInvalid_nil]
  | cons c B ih =>
    intro r
    obtain ⟨h1, h2, h3⟩ := hB c (by simp)
    rw [List.cons_append]
    conv_lhs => unfold scanFrom
    simp only [h1, h2, h3, or_self, if_false]
    rw [ih (fun d hd => hB d (List.mem_cons_of_mem _ hd))]
    simp [replaceInvalid_cons]

/-- The remainder of the scanner is empty or begins with a space or tab. -/
theorem scanFrom_rem_shape (cs : Str) :
    ∀ (prevquote : Bool) (r : Str), (scanFrom cs prevquote r).2 = [] ∨
      ∃ c rest1, (scanFrom cs prevquote r).2 = c :: rest1 ∧ (c = space ∨ c = tab) := by
  induction cs with
  | nil => intro prevquote r; exact Or.inl rfl
  | cons c cs ih =>
    intro prevquote r
    unfold scanFrom
    split_ifs with h1 h2 h3 h4
    · exact ih _ _
    · exact ih _ _
    · exact Or.inr ⟨c, cs, rfl, h3⟩
    · exact ih _ _
    · exact ih _ _

/-- The loop of `Line` never ends on an out-of-range slice, whatever the bound. -/
theorem LineLoop_no_slice_fault (fuel : Nat) :
    ∀ (line : Str) (t : List Str), LineLoop fuel line t ≠ Res.fault Fault.sliceOutOfRange := by
  induction fuel with
  | zero =>
    intro line t
    unfold LineLoop
    split_ifs
    · intro h; injection h with h; cases h
    · intro h; cases h
  | succ fuel ih =>
    intro line t
    unfold LineLoop
    split_ifs with hl
    · obtain ⟨tok, line1, hb⟩ := LineBody_ok line
      rw [hb]
      exact ih line1 _
    · intro h; cases h

theorem head_ne_dquote_HasPrefix (line : Str) (hq : line.head? ≠ some dquote) :
    HasPrefix line [dquote] = false := by
  cases line with
  | nil => exact HasPrefix_nil
  | cons c cs =>
    have hc : c ≠ dquote := fun e => hq (by simp [e])
    simp [HasPrefix_dquote_cons, hc]

/-! ## The reference scan -/

theorem isStopAtFrom_zero (n : Nat) (c : Item) (b : Str) :
    isStopAtFrom n (c :: b) 0 = (decide (c = space ∨ c = tab) && decide (n % 2 = 1)) := by
  by_cases hn : n % 2 = 1
  · simp [isStopAtFrom, beq_eq_decide, hn]
  · simp [isStopAtFrom, beq_eq_decide, hn]

theorem isStopAtFrom_succ (n : Nat) (c : Item) (b : Str) (i : Nat) :
    isStopAtFrom n (c :: b) (i + 1) = isStopAtFrom (n + (if c = dquote then 1 else 0)) b i := by
  simp only [isStopAtFrom, List.getElem?_cons_succ, List.take_succ_cons, List.count_cons,
    beq_iff_eq]
  have e : n + (List.count dquote (List.take i b) + if c = dquote then 1 else 0)
      = n + (if c = dquote then 1 else 0) + List.count dquote (List.take i b) := by omega
  rw [e]

theorem stopOffsetFrom_nil (n : Nat) : stopOffsetFrom n [] = 0 := rfl

theorem stopOffsetFrom_cons (n : Nat) (c : Item) (b : Str) :
    stopOffsetFrom n (c :: b)
      = if (c = space ∨ c = tab) ∧ n % 2 = 1 then 0
        else stopOffsetFrom (n + (if c = dquote then 1 else 0)) b + 1 := by
  unfold stopOffsetFrom
  rw [List.length_cons, List.range_succ_eq_map, List.find?_cons, isStopAtFrom_zero]
  by_cases h : (c = space ∨ c = tab) ∧ n % 2 = 1
  · have hd : (decide (c = space ∨ c = tab) && decide (n % 2 = 1)) = true := by
      simp only [Bool.and_eq_true, decide_eq_true_eq]; exact h
    rw [hd, if_pos h]
    rfl
  · have hd : (decide (c = space ∨ c = tab) && decide (n % 2 = 1)) = false := by
      rw [Bool.eq_false_iff]
      simp only [ne_eq, Bool.and_eq_true, decide_eq_true_eq]; exact h
    rw [hd, if_neg h, List.find?_map]
    have hf : isStopAtFrom n (c :: b) ∘ Nat.succ
        = isStopAtFrom (n + (if c = dquote then 1 else 0)) b := by
      funext i
      exact isStopAtFrom_succ n c b i
    rw [hf]
    exact Option.getD_map Nat.succ b.length _

theorem deleteOddQuotesFrom_nil (n : Nat) : deleteOddQuotesFrom n [] = [] := rfl

theorem deleteOddQuotesFrom_cons (n : Nat) (c : Item) (p : Str) :
    deleteOddQuotesFrom n (c :: p)
      = if c = dquote then
          (if n % 2 = 0 then deleteOddQuotesFrom (n + 1) p
           else c :: deleteOddQuotesFrom (n + 1) p)
        else c :: deleteOddQuotesFrom n p := by
  unfold deleteOddQuotesFrom
  rw [List.length_cons, List.range_succ_eq_map, List.filterMap_cons, List.filterMap_map]
  have hf : ((fun j => if (c :: p)[j]? = some dquote ∧
        (n + ((c :: p).take (j + 1)).count dquote) % 2 = 1 then none else (c :: p)[j]?)
        ∘ Nat.succ)
      = (fun j => if p[j]? = some dquote ∧
        (n + (if c = dquote then 1 else 0) + (p.take (j + 1)).count dquote) % 2 = 1
        then none else p[j]?) := by
    funext j
    simp only [Function.comp, Nat.succ_eq_add_one, List.getElem?_cons_succ, List.take_succ_cons,
      List.count_cons, beq_iff_eq]
    have e : n + (List.count dquote (List.take (j + 1) p) + if c = dquote then 1 else 0)
        = n + (if c = dquote then 1 else 0) + List.count dquote (List.take (j + 1) p) := by omega
    rw [e]
  rw [hf]
  by_cases hc : c = dquote
  · subst hc
    by_cases hn : n % 2 = 0
    · have h1 : (n + 1) % 2 = 1 := by omega
      simp [hn, h1]
    · have h1 : ¬ (n + 1) % 2 = 1 := by omega
      simp [hn, h1]
  · simp [hc]

/-- The scanning loop, entered after `n` quotes of the body, computes the reference token,
each ill-formed byte as U+FFFD, and the reference remainder. -/
theorem scanFrom_eq_reference (cs : Str) :
    ∀ (n : Nat) (r : Str),
      scanFrom cs (decide (n % 2 = 1)) r
        = (r ++ replaceInvalid (deleteOddQuotesFrom n (cs.take (stopOffsetFrom n cs))),
            cs.drop (stopOffsetFrom n cs)) := by
  induction cs with
  | nil =>
    intro n r
    simp [scanFrom, stopOffsetFrom_nil, deleteOddQuotesFrom_nil, replaceInvalid_nil]
  | cons c cs ih =>
    intro n r
    rw [stopOffsetFrom_cons]
    conv_lhs => unfold scanFrom
    by_cases hq : c = dquote
    · subst hq
      have hns : ¬ ((dquote = space ∨ dquote = tab) ∧ n % 2 = 1) := by
        rintro ⟨h | h, _⟩
        · exact dquote_ne_space h
        · exact dquote_ne_tab h
      rw [if_neg hns, if_pos rfl, if_pos rfl, List.take_succ_cons, List.drop_succ_cons,
        deleteOddQuotesFrom_cons, if_pos rfl]
      by_cases hn : n % 2 = 1
      · have h1 : decide ((n + 1) % 2 = 1) = false := by
          rw [decide_eq_false_iff_not]; omega
        have h0 : ¬ n % 2 = 0 := by omega
        have := ih (n + 1) (r ++ [dquote])
        rw [h1] at this
        simp only [hn, decide_True, if_true, h0, if_false, copied_dquote, this]
        simp [replaceInvalid_cons, copied_dquote]
      · have h1 : decide ((n + 1) % 2 = 1) = true := by
          rw [decide_eq_true_iff]; omega
        have h0 : n % 2 = 0 := by omega
        have := ih (n + 1) r
        rw [h1] at this
        simp only [hn, decide_False, Bool.false_eq_true, if_false, h0, if_true, this]
        simp
    · by_cases hs : c = space ∨ c = tab
      · by_cases hn : n % 2 = 1
        · simp [hq, hs, hn, deleteOddQuotesFrom_nil, replaceInvalid_nil]
        · have hns : ¬ ((c = space ∨ c = tab) ∧ n % 2 = 1) := fun h => hn h.2
          rw [if_neg hns, if_neg hq, if_neg hq, Nat.add_zero, List.take_succ_cons,
            List.drop_succ_cons, deleteOddQuotesFrom_cons, if_neg hq]
          have := ih n (r ++ [c.copied])
          simp only [hn, decide_False] at this ⊢
          simp only [hs, if_true, Bool.false_eq_true, if_false, this]
          simp [replaceInvalid_cons]
      · have hns : ¬ ((c = space ∨ c = tab) ∧ n % 2 = 1) := fun h => hs h.1
        rw [if_neg hns, if_neg hq, if_neg hq, Nat.add_zero, List.take_succ_cons,
          List.drop_succ_cons, deleteOddQuotesFrom_cons, if_neg hq]
        have := ih n (r ++ [c.copied])
        simp only [hs, if_false, this]
        simp [replaceInvalid_cons]

theorem stopOffsetFrom_zero (b : Str) : stopOffsetFrom 0 b = stopOffset b := by
  unfold stopOffsetFrom stopOffset
  have : isStopAtFrom 0 b = isStopAt b := by
    funext i
    simp [isStopAtFrom, isStopAt]
  rw [this]

theorem deleteOddQuotesFrom_zero (p : Str) : deleteOddQuotesFrom 0 p = deleteOddQuotes p := by
  unfold deleteOddQuotesFrom deleteOddQuotes
  simp

/-- The scanner computes the reference scan of the body, each ill-formed byte of the token as
U+FFFD. -/
theorem parsequotedstring_eq_referenceScan (cs : Str) :
    parsequotedstring (dquote :: cs)
      = Res.ok (replaceInvalid (referenceScan cs).1, (referenceScan cs).2) := by
  rw [parsequotedstring_cons]
  have := scanFrom_eq_reference cs 0 []
  rw [stopOffsetFrom_zero, deleteOddQuotesFrom_zero] at this
  simpa [referenceScan] using this

/-- The offset found is in range, holds the first stopping space or tab when it is inside the
body, and no earlier offset is a stopping one. -/
theorem stopOffsetFrom_spec (b : Str) :
    ∀ n : Nat, stopOffsetFrom n b ≤ b.length ∧
      (∀ j, j < stopOffsetFrom n b → isStopAtFrom n b j = false) ∧
      (stopOffsetFrom n b < b.length → isStopAtFrom n b (stopOffsetFrom n b) = true) := by
  induction b with
  | nil =>
    intro n
    rw [stopOffsetFrom_nil]
    exact ⟨le_refl _, fun j hj => absurd hj (Nat.not_lt_zero j), fun h => absurd h (Nat.lt_irrefl _)⟩
  | cons c b ih =>
    intro n
    rw [stopOffsetFrom_cons]
    by_cases h : (c = space ∨ c = tab) ∧ n % 2 = 1
    · rw [if_pos h]
      refine ⟨Nat.zero_le _, fun j hj => absurd hj (Nat.not_lt_zero j), fun _ => ?_⟩
      rw [isStopAtFrom_zero]
      simp only [Bool.and_eq_true, decide_eq_true_eq]
      exact h
    · rw [if_neg h]
      obtain ⟨h1, h2, h3⟩ := ih (n + (if c = dquote then 1 else 0))
      refine ⟨by simp only [List.length_cons]; omega, ?_, ?_⟩
      · intro j hj
        cases j with
        | zero =>
          rw [isStopAtFrom_zero, Bool.eq_false_iff]
          simp only [ne_eq, Bool.and_eq_true, decide_eq_true_eq]
          exact h
        | succ j =>
          rw [isStopAtFrom_succ]
          exact h2 j (by omega)
      · intro hlt
        rw [isStopAtFrom_succ]
        exact h3 (by simp only [List.length_cons] at hlt; omega)

theorem map_replaceInvalid_of_wellFormed (ts : List Str) (h : ∀ T ∈ ts, WellFormed T) :
    ts.map replaceInvalid = ts := by
  induction ts with
  | nil => rfl
  | cons T ts ih =>
    rw [List.map_cons, replaceInvalid_of_wellFormed T (h T (by simp)),
      ih (fun U hU => h U (List.mem_cons_of_mem _ hU))]

/-- Deleting quotes adds no item. -/
theorem deleteOddQuotes_subset (p : Str) : ∀ it ∈ deleteOddQuotes p, it ∈ p := by
  intro it hit
  unfold deleteOddQuotes at hit
  obtain ⟨j, _, hj⟩ := List.mem_filterMap.mp hit
  split_ifs at hj
  exact List.getElem?_mem hj

/-! ## The tables of the tests -/

/-- The four rows of `linetab` in `TestLine`. -/
theorem TestLine_linetab :
    Line (stringOfRunes ['w', 'o', 'r', 'd']) = Res.ok [stringOfRunes ['w', 'o', 'r', 'd']] ∧
    Line [letterA, space, letterB] = Res.ok [[letterA], [letterB]] ∧
    Line [dquote, letterA, dquote, space, dquote, letterB, dquote] = Res.ok [[letterA], [letterB]] ∧
    Line [dquote, letterA, dquote, dquote, dquote, space, dquote, letterB, dquote]
      = Res.ok [[letterA, dquote], [letterB]] := by
  decide

/-- The sample text gives the single entry `hello`, `world`. -/
theorem reader_sampleText :
    reader sampleText
      = Res.ok ([[stringOfRunes ['h', 'e', 'l', 'l', 'o'],
          stringOfRunes ['w', 'o', 'r', 'l', 'd']]], none) := by
  decide

/-! ## The properties of the specification -/

/-- Claim C1, as stated, fails on the list of the one string made of the ill-formed byte
`0xFF`: `Line` of its quoted form returns the string of U+FFFD, not the string itself. -/
theorem quote_round_trip_ill_formed :
    Line ([space].intercalate ([[byteFF]].map quoteToken)) = Res.ok [[replacementChar]] ∧
    Line ([space].intercalate ([[byteFF]].map quoteToken)) ≠ Res.ok [[byteFF]] := by
  decide

/-- Claim C1, amended. Quoting round trip for `Line`: for every list `ts` of strings that are
well-formed UTF-8, `Line` applied to the quoted forms of `ts` (a quote, the string with every
quote doubled, a quote) joined by single spaces returns exactly `ts`, in the same order. -/
theorem quote_round_trip (ts : List Str) (hwf : ∀ T ∈ ts, WellFormed T) :
    Line ([space].intercalate (ts.map quoteToken)) = Res.ok ts := by
  have h := Line_intercalate_quoteToken ts
  rw [map_replaceInvalid_of_wellFormed ts hwf] at h
  exact h

/-- Instance of `quote_round_trip` at the strings `a`, quote and space, `b`, the empty string. -/
theorem quote_round_trip_witness :
    (∀ T ∈ [[letterA, dquote], [space, letterB], []], WellFormed T) ∧
    Line ([space].intercalate ([[letterA, dquote], [space, letterB], []].map quoteToken))
      = Res.ok [[letterA, dquote], [space, letterB], []] :=
  ⟨by decide, quote_round_trip [[letterA, dquote], [space, letterB], []] (by decide)⟩

/-- Claim C2, evaluated where it fails. On the line made of a space and the letter `a`, which
contains no quote character, `Line` returns the empty token followed by `a`, whereas splitting
on runs of spaces/tabs and dropping the empty fields gives the single field `a`. -/
theorem leading_blank_gives_empty_token :
    Line [space, letterA] = Res.ok [[], [letterA]] ∧ fieldsSpec [space, letterA] = [[letterA]] := by
  decide

/-- Claim C3, as stated, fails on a text made of one line of `MaxScanTokenSize` bytes: `reader`
returns no entry (and the scanner's error `ErrTooLong`), although the text has one qualifying
line; so the entries are not the tokens of the qualifying lines. -/
theorem reader_long_line_dropped :
    reader longLine = Res.ok ([], some ScanError.ErrTooLong) ∧
    qualifyingLines longLine = [longLine] ∧
    ¬ ∃ r e, reader longLine = Res.ok (r, e) ∧
        List.Forall₂ (fun l toks => Line l = Res.ok toks) (qualifyingLines longLine) r := by
  refine ⟨reader_longLine, qualifyingLines_longLine, ?_⟩
  rintro ⟨r, e, h1, h2⟩
  rw [reader_longLine] at h1
  injection h1 with h1
  injection h1 with h1 _
  subst h1
  rw [qualifyingLines_longLine] at h2
  cases h2

/-- Claim C3, amended. On a text whose reads succeed and whose newline-delimited lines are all
shorter than `MaxScanTokenSize` bytes, `reader` returns no error and exactly the list obtained
by splitting the text into newline-delimited lines, trimming spaces, tabs and carriage returns
from both ends of each, discarding the lines that are then empty or begin with `#`, and
applying `Line` to each remaining trimmed line, in source order; so the number of entries
equals the number of qualifying lines. -/
theorem reader_qualifying_lines (text : Str)
    (hfit : ∀ l ∈ text.splitOn newline, byteLen l < MaxScanTokenSize) :
    ∃ r, reader text = Res.ok (r, none) ∧
      List.Forall₂ (fun l toks => Line l = Res.ok toks) (qualifyingLines text) r ∧
      r.length = (qualifyingLines text).length := by
  obtain ⟨r, h1, h2⟩ := reader_spec text hfit
  exact ⟨r, h1, h2, h2.length_eq.symm⟩

/-- Instance of `reader_qualifying_lines` at the sample text. -/
theorem reader_qualifying_lines_witness :
    (∀ l ∈ sampleText.splitOn newline, byteLen l < MaxScanTokenSize) ∧
    ∃ r, reader sampleText = Res.ok (r, none) ∧
      List.Forall₂ (fun l toks => Line l = Res.ok toks) (qualifyingLines sampleText) r ∧
      r.length = (qualifyingLines sampleText).length :=
  ⟨by decide, reader_qualifying_lines sampleText (by decide)⟩

/-- Claim C4, evaluated where it fails. On the line made of one space `Line` returns one token,
the empty string, and not the empty token sequence; on the empty line it returns the empty
sequence. -/
theorem blank_line_gives_empty_token :
    Line [space] = Res.ok [[]] ∧ Line [tab, space] = Res.ok [[]] ∧ Line [] = Res.ok [] := by
  decide

/-- Claim C5. Separator insensitivity of `Line`: for a non-empty sequence of token texts, each
a non-empty plain word (no space or tab, not beginning with a quote) or a closed quoted span,
joined by non-empty runs of spaces/tabs, the result of `Line` is the same for every choice of
the runs: it is the sequence of the tokens the texts stand for. -/
theorem separator_insensitive (texts seps1 seps2 : List Str) (_hne : texts ≠ [])
    (htexts : ∀ w ∈ texts, isTokenText w)
    (hl1 : seps1.length + 1 = texts.length) (hl2 : seps2.length + 1 = texts.length)
    (hs1 : ∀ s ∈ seps1, isSepRun s) (hs2 : ∀ s ∈ seps2, isSepRun s) :
    ∃ ts, Line (joinWith texts seps1) = Res.ok ts ∧ Line (joinWith texts seps2) = Res.ok ts ∧
      List.Forall₂ Decodes texts ts := by
  obtain ⟨ts, hts⟩ := exists_Decodes texts htexts
  exact ⟨ts, Line_joinWith hts seps1 hl1 hs1, Line_joinWith hts seps2 hl2 hs2, hts⟩

/-- Instance of `separator_insensitive`: a plain word and a quoted span, separated by one space
or by a tab and two spaces. -/
theorem separator_insensitive_witness :
    ∃ ts, Line (joinWith [[letterA, dquote, letterB], quoteToken [letterC, space, dquote]] [[space]])
        = Res.ok ts ∧
      Line (joinWith [[letterA, dquote, letterB], quoteToken [letterC, space, dquote]] [[tab, space, space]])
        = Res.ok ts ∧
      List.Forall₂ Decodes [[letterA, dquote, letterB], quoteToken [letterC, space, dquote]] ts :=
  separator_insensitive [[letterA, dquote, letterB], quoteToken [letterC, space, dquote]]
    [[space]] [[tab, space, space]] (by simp)
    (by
      intro w hw
      rcases List.mem_cons.mp hw with e | hw
      · left; rw [e]; decide
      · right; exact ⟨[letterC, space, dquote], by simpa using hw⟩)
    (by decide) (by decide) (by decide) (by decide)

/-- Claim C6, as stated, fails on the string `T` made of the ill-formed byte `0xFF`, which
holds no quote character: `Line` of a quote, `T` and a quote returns the string of U+FFFD, not
`T`. -/
theorem quoted_without_quote_ill_formed :
    dquote ∉ [byteFF] ∧
    Line (dquote :: ([byteFF] ++ [dquote])) = Res.ok [[replacementChar]] ∧
    Line (dquote :: ([byteFF] ++ [dquote])) ≠ Res.ok [[byteFF]] := by
  decide

/-- Claim C6, amended. For every string `T` that is well-formed UTF-8 and without quote
character (it may be empty and may contain spaces and tabs), `Line` of a quote, `T` and a quote
is the one-element list of `T`. -/
theorem quoted_without_quote (T : Str) (hT : dquote ∉ T) (hwf : WellFormed T) :
    Line (dquote :: (T ++ [dquote])) = Res.ok [T] := by
  have hb := LineBody_quoteToken T [] (Or.inl rfl)
  have e : quoteToken T ++ [] = dquote :: (T ++ [dquote]) := by
    simp [quoteToken, doubleQuotes_no_quote T hT]
  rw [e, replaceInvalid_of_wellFormed T hwf] at hb
  exact Line_step (List.cons_ne_nil _ _) hb Line_nil

/-- Instance of `quoted_without_quote` at the string `a`, space, tab, `b`. -/
theorem quoted_without_quote_witness :
    dquote ∉ [letterA, space, tab, letterB] ∧ WellFormed [letterA, space, tab, letterB] ∧
    Line (dquote :: ([letterA, space, tab, letterB] ++ [dquote]))
      = Res.ok [[letterA, space, tab, letterB]] :=
  ⟨by decide, by decide,
    quoted_without_quote [letterA, space, tab, letterB] (by decide) (by decide)⟩

/-- Claim C7, as stated, fails on the string `T` made of the ill-formed byte `0xFF`: the
scanner applied to a quote followed by `T` returns the token of U+FFFD, not `T`, and so does
`Line`. -/
theorem unterminated_quote_ill_formed :
    dquote ∉ [byteFF] ∧
    parsequotedstring (dquote :: [byteFF]) = Res.ok ([replacementChar], []) ∧
    parsequotedstring (dquote :: [byteFF]) ≠ Res.ok ([byteFF], []) ∧
    Line (dquote :: [byteFF]) = Res.ok [[replacementChar]] := by
  decide

/-- Claim C7, amended. A missing closing quote is not an error: for every string `T` that is
well-formed UTF-8 and without quote character, the scanner applied to a quote followed by `T`
returns the token `T` and the empty remainder, and `Line` of that string is the one-element
list of `T`; the unterminated span takes the rest of the line, spaces and tabs included. -/
theorem unterminated_quote (T : Str) (hT : dquote ∉ T) (hwf : WellFormed T) :
    parsequotedstring (dquote :: T) = Res.ok (T, []) ∧ Line (dquote :: T) = Res.ok [T] := by
  have hs : scanFrom T false [] = (T, []) := by
    have := scanFrom_no_quote T hT []
    rw [replaceInvalid_of_wellFormed T hwf] at this
    simpa using this
  refine ⟨by rw [parsequotedstring_cons, hs], ?_⟩
  have hb := LineBody_quote T
  rw [hs] at hb
  exact Line_step (List.cons_ne_nil _ _) hb Line_nil

/-- Instance of `unterminated_quote` at the string `a`, `b`, space, `c`. -/
theorem unterminated_quote_witness :
    dquote ∉ [letterA, letterB, space, letterC] ∧ WellFormed [letterA, letterB, space, letterC] ∧
    parsequotedstring (dquote :: [letterA, letterB, space, letterC])
      = Res.ok ([letterA, letterB, space, letterC], []) ∧
    Line (dquote :: [letterA, letterB, space, letterC])
      = Res.ok [[letterA, letterB, space, letterC]] :=
  ⟨by decide, by decide,
    unterminated_quote [letterA, letterB, space, letterC] (by decide) (by decide)⟩

/-- Claim C8, as stated, fails on the line quote, byte `0xFF`, quote, space, `b`: the tokens
are U+FFFD and `b`; their concatenation is no subsequence of the line, and the byte `0xFF`,
which is not a quote, a space or a tab, is lost. -/
theorem character_accounting_ill_formed :
    Line [dquote, byteFF, dquote, space, letterB] = Res.ok [[replacementChar], [letterB]] ∧
    ¬ ([[replacementChar], [letterB]].flatten.Sublist [dquote, byteFF, dquote, space, letterB]) ∧
    [dquote, byteFF, dquote, space, letterB].filter isKept
      ≠ ([[replacementChar], [letterB]].flatten).filter isKept := by
  refine ⟨by decide, ?_, by decide⟩
  intro h
  have hm : replacementChar ∈ [dquote, byteFF, dquote, space, letterB] :=
    h.subset (by simp)
  exact absurd hm (by decide)

/-- Claim C8, amended. Character accounting for `Line`: for every line that is well-formed
UTF-8, `Line` returns tokens whose concatenation is a subsequence of the line, in the original
order, and whose characters other than quote, space and tab are, read in order, those of the
line; only quotes, spaces and tabs can be lost. -/
theorem character_accounting (line : Str) (hwf : WellFormed line) :
    ∃ ts, Line line = Res.ok ts ∧ ts.flatten.Sublist line ∧
      line.filter isKept = ts.flatten.filter isKept := by
  obtain ⟨ts, h⟩ := Line_total line
  obtain ⟨h1, h2⟩ := Tokenizes_account ((Line_iff _ _).mp h) hwf
  exact ⟨ts, h, h1, h2.symm⟩

/-- Instance of `character_accounting` at the line `a`, space, quote, `b`, quote, quote, space,
`c`, quote. -/
theorem character_accounting_witness :
    WellFormed [letterA, space, dquote, letterB, dquote, dquote, space, letterC, dquote] ∧
    ∃ ts, Line [letterA, space, dquote, letterB, dquote, dquote, space, letterC, dquote]
        = Res.ok ts ∧
      ts.flatten.Sublist
        [letterA, space, dquote, letterB, dquote, dquote, space, letterC, dquote] ∧
      [letterA, space, dquote, letterB, dquote, dquote, space, letterC, dquote].filter isKept
        = ts.flatten.filter isKept :=
  ⟨by decide, character_accounting
    [letterA, space, dquote, letterB, dquote, dquote, space, letterC, dquote] (by decide)⟩

/-- Claim C9. Tokens of the unquoted case never contain whitespace: for every line without
quote character, no token of `Line` contains a space or a tab. -/
theorem unquoted_tokens_without_blank (line : Str) (hq : dquote ∉ line) :
    ∃ ts, Line line = Res.ok ts ∧ ∀ t ∈ ts, space ∉ t ∧ tab ∉ t := by
  obtain ⟨ts, h⟩ := Line_total line
  exact ⟨ts, h, Tokenizes_no_sep ((Line_iff _ _).mp h) hq⟩

/-- Instance of `unquoted_tokens_without_blank` at the line space, `a`, tab, space, `b`, space. -/
theorem unquoted_tokens_without_blank_witness :
    dquote ∉ [space, letterA, tab, space, letterB, space] ∧
    ∃ ts, Line [space, letterA, tab, space, letterB, space] = Res.ok ts ∧
      ∀ t ∈ ts, space ∉ t ∧ tab ∉ t :=
  ⟨by decide, unquoted_tokens_without_blank [space, letterA, tab, space, letterB, space] (by decide)⟩

/-- Claim C10. `Line` is total: for every line the loop terminates with a token sequence, the
same for every bound of at least as many iterations as the line has characters, because each
iteration returns a token and a strictly shorter remaining line. -/
theorem Line_terminates (line : Str) :
    (∃ ts, Line line = Res.ok ts ∧
      ∀ fuel, line.length ≤ fuel → LineLoop fuel line [] = Res.ok ts) ∧
    (∃ tok line1, LineBody line = Res.ok (tok, line1) ∧
      (line ≠ [] → line1.length < line.length)) := by
  constructor
  · obtain ⟨ts, h⟩ := Line_total line
    refine ⟨ts, h, ?_⟩
    intro fuel hf
    have := LineLoop_complete ((Line_iff _ _).mp h) fuel [] hf
    simpa using this
  · obtain ⟨tok, line1, hb⟩ := LineBody_ok line
    exact ⟨tok, line1, hb, fun hne => LineBody_shorter line tok line1 hne hb⟩

/-- Claim C11, as stated, fails on a text made of one line of `MaxScanTokenSize` bytes, although
no read of the stream fails: `reader` returns the error `ErrTooLong`, not a nil error. -/
theorem reader_long_line_error :
    (∃ r, reader longLine = Res.ok (r, some ScanError.ErrTooLong)) ∧
    ¬ ∃ r, reader longLine = Res.ok (r, none) := by
  refine ⟨⟨[], reader_longLine⟩, ?_⟩
  rintro ⟨r, h⟩
  rw [reader_longLine] at h
  injection h with h
  injection h with _ h
  cases h

/-- Claim C11, amended. When the reads of the stream all succeed, `reader` returns an error
only if a line of the text has `MaxScanTokenSize` bytes or more (the scanner's `ErrTooLong`):
it always returns, its error is nil exactly when every newline-delimited line is shorter than
`MaxScanTokenSize` bytes, and with a nil error it returns the tokenized qualifying lines. -/
theorem reader_error_iff_long_line (text : Str) :
    ∃ r e, reader text = Res.ok (r, e) ∧
      (e = none ↔ ∀ l ∈ text.splitOn newline, byteLen l < MaxScanTokenSize) ∧
      (e = none →
        List.Forall₂ (fun l toks => Line l = Res.ok toks) (qualifyingLines text) r) := by
  obtain ⟨r, hr⟩ := reader_ok text
  have e : (text.splitOn newline).modifyHead (fun h => [] ++ h) = text.splitOn newline := by
    cases text.splitOn newline <;> simp
  have hiff := scanLines_err_iff text []
  rw [e] at hiff
  refine ⟨r, _, hr, hiff, ?_⟩
  intro hnone
  obtain ⟨r2, h1, h2⟩ := reader_spec text (hiff.mp hnone)
  rw [hr, hnone] at h1
  injection h1 with h1
  injection h1 with h1 _
  rw [h1]
  exact h2

/-- Claim C12, as stated, fails on the string quote, `a`, quote, `b`, space, `c`: the scanner
returns the token `ab` and the remainder of a space and `c`, not the token `ab c` with an
empty remainder. -/
theorem pending_quote_not_cleared :
    parsequotedstring [dquote, letterA, dquote, letterB, space, letterC]
      = Res.ok ([letterA, letterB], [space, letterC]) ∧
    parsequotedstring [dquote, letterA, dquote, letterB, space, letterC]
      ≠ Res.ok ([letterA, letterB, space, letterC], []) := by
  decide

/-- Claim C12, amended. In the quoted-span scanner a character other than quote, space or tab
that follows a pending quote is appended to the token, the pending quote is dropped, and the
pending-close flag stays set: a space or tab that comes next ends the scan and begins the
remainder. -/
theorem pending_quote_stays (s A cs rest : Str) (r : List Char) (i : Nat) (c w : Item)
    (hq : c ≠ dquote) (hs : c ≠ space) (ht : c ≠ tab) (hw : w = space ∨ w = tab)
    (hA : dquote ∉ A) :
    parsequotedstringLoop s i (c :: cs) true r
      = parsequotedstringLoop s (i + 1) cs true (r ++ [c.rune]) ∧
    parsequotedstring (dquote :: (A ++ dquote :: c :: w :: rest))
      = Res.ok (replaceInvalid (A ++ [c]), w :: rest) ∧
    (WellFormed (A ++ [c]) →
      parsequotedstring (dquote :: (A ++ dquote :: c :: w :: rest))
        = Res.ok (A ++ [c], w :: rest)) := by
  have hscan : parsequotedstring (dquote :: (A ++ dquote :: c :: w :: rest))
      = Res.ok (replaceInvalid (A ++ [c]), w :: rest) := by
    rw [parsequotedstring_cons, scanFrom_no_quote_append A hA]
    have h1 : scanFrom (dquote :: c :: w :: rest) false ([] ++ replaceInvalid A)
        = scanFrom ([c] ++ w :: rest) true ([] ++ replaceInvalid A) := by
      conv_lhs => unfold scanFrom
      simp
    rw [h1, scanFrom_pending_word [c] (by simp [hq, hs, ht]) w hw rest]
    simp [replaceInvalid_append]
  refine ⟨parsequotedstringLoop_ordinary s i c cs r true hq hs ht, hscan, ?_⟩
  intro hwf
  rw [hscan, replaceInvalid_of_wellFormed _ hwf]

/-- Instance of `pending_quote_stays`: scanning quote, `a`, quote, `b`, space, `c`. -/
theorem pending_quote_stays_witness :
    parsequotedstringLoop [letterA, dquote, letterB, space, letterC] 2
        (letterB :: [space, letterC]) true ['a']
      = parsequotedstringLoop [letterA, dquote, letterB, space, letterC] (2 + 1)
          [space, letterC] true (['a'] ++ [letterB.rune]) ∧
    parsequotedstring (dquote :: ([letterA] ++ dquote :: letterB :: space :: [letterC]))
      = Res.ok ([letterA] ++ [letterB], space :: [letterC]) :=
  ⟨(pending_quote_stays [letterA, dquote, letterB, space, letterC] [letterA] [space, letterC]
      [letterC] ['a'] 2 letterB space
      (by decide) (by decide) (by decide) (Or.inl rfl) (by decide)).1,
    (pending_quote_stays [letterA, dquote, letterB, space, letterC] [letterA] [space, letterC]
      [letterC] ['a'] 2 letterB space
      (by decide) (by decide) (by decide) (Or.inl rfl) (by decide)).2.2 (by decide)⟩

/-- Claim C13. Plain-word step of `Line`: for a non-empty line whose first character is not a
quote, with `p` the longest prefix of the line without space or tab and `r` the rest, `Line`
returns `p` followed by the tokens of `r` with its leading spaces/tabs removed; quotes inside
`p` are kept and start no quoted span. -/
theorem plain_word_step (line : Str) (_hne : line ≠ []) (hq : line.head? ≠ some dquote) :
    line.takeWhile (fun c => decide (c ∉ [space, tab]))
        ++ line.dropWhile (fun c => decide (c ∉ [space, tab])) = line ∧
    (∀ c ∈ line.takeWhile (fun c => decide (c ∉ [space, tab])), c ≠ space ∧ c ≠ tab) ∧
    (line.dropWhile (fun c => decide (c ∉ [space, tab])) = [] ∨
      ∃ c rest1, line.dropWhile (fun c => decide (c ∉ [space, tab])) = c :: rest1 ∧
        (c = space ∨ c = tab)) ∧
    ∃ ts, Line (TrimLeft (line.dropWhile (fun c => decide (c ∉ [space, tab]))) [space, tab])
        = Res.ok ts ∧
      Line line = Res.ok (line.takeWhile (fun c => decide (c ∉ [space, tab])) :: ts) := by
  refine ⟨List.takeWhile_append_dropWhile _ _, ?_, dropWhile_notSep_shape line, ?_⟩
  · intro c hc
    have := List.mem_takeWhile_imp hc
    simp only [decide_eq_true_eq] at this
    exact ⟨fun e => this ((mem_seps c).mpr (Or.inl e)), fun e => this ((mem_seps c).mpr (Or.inr e))⟩
  · obtain ⟨ts, hts⟩ :=
      Line_total (TrimLeft (line.dropWhile (fun c => decide (c ∉ [space, tab]))) [space, tab])
    exact ⟨ts, hts, Line_step _hne (LineBody_plain line (head_ne_dquote_HasPrefix line hq)) hts⟩

/-- Instance of `plain_word_step` at the line `a`, quote, `b`, space, `c`, quote, `d`, whose
tokens are `a`, quote, `b` and `c`, quote, `d`. -/
theorem plain_word_step_witness :
    Line [letterA, dquote, letterB, space, letterC, dquote, letterD]
        = Res.ok [[letterA, dquote, letterB], [letterC, dquote, letterD]] ∧
    ∃ ts, Line (TrimLeft ([letterA, dquote, letterB, space, letterC, dquote, letterD].dropWhile
          (fun c => decide (c ∉ [space, tab]))) [space, tab]) = Res.ok ts ∧
      Line [letterA, dquote, letterB, space, letterC, dquote, letterD]
        = Res.ok ([letterA, dquote, letterB, space, letterC, dquote, letterD].takeWhile
            (fun c => decide (c ∉ [space, tab])) :: ts) :=
  ⟨by decide,
    (plain_word_step [letterA, dquote, letterB, space, letterC, dquote, letterD] (by decide) (by decide)).2.2.2⟩

/-- Claim C14. For every string that begins with a quote, the quoted-span scanner returns a
remainder that is a suffix of the string, is empty or begins with a space or tab (the
terminating whitespace is not consumed), and is strictly shorter than the string. -/
theorem scanner_remainder (cs : Str) :
    ∃ tok rem, parsequotedstring (dquote :: cs) = Res.ok (tok, rem) ∧
      rem <:+ dquote :: cs ∧
      (rem = [] ∨ ∃ c rest1, rem = c :: rest1 ∧ (c = space ∨ c = tab)) ∧
      rem.length < (dquote :: cs).length := by
  refine ⟨_, _, parsequotedstring_cons dquote cs, ?_, scanFrom_rem_shape cs false [], ?_⟩
  · exact (scanFrom_suffix cs false []).trans (List.suffix_cons _ _)
  · have := (scanFrom_suffix cs false []).length_le
    simp only [List.length_cons]
    omega

/-- Claim C15. No out-of-range slicing occurs in `Line`: the scanner is called only on a line
that begins with a quote, where its slices are in range and it returns; the offset found by
`IndexAny`, when not negative, is in range for both slices of the line; and the loop never
ends on an out-of-range slice, for every line and every bound. On the empty string, which
`Line` never passes, the scanner's first slice is out of range. -/
theorem no_slice_out_of_range (line : Str) :
    (HasPrefix line [dquote] = true →
      ∃ cs, line = dquote :: cs ∧ sliceFrom line 1 = Res.ok cs ∧
        ∃ tok rest, parsequotedstring line = Res.ok (tok, rest)) ∧
    (0 ≤ IndexAny line [space, tab] →
      ∃ tok rest, sliceTo line (IndexAny line [space, tab]) = Res.ok tok ∧
        sliceFrom line (IndexAny line [space, tab]) = Res.ok rest) ∧
    (∀ fuel t, LineLoop fuel line t ≠ Res.fault Fault.sliceOutOfRange) ∧
    (∃ ts, Line line = Res.ok ts) ∧
    parsequotedstring [] = Res.fault Fault.sliceOutOfRange := by
  refine ⟨?_, ?_, fun fuel t => LineLoop_no_slice_fault fuel line t, Line_total line, by decide⟩
  · intro hp
    cases line with
    | nil => simp [HasPrefix_nil] at hp
    | cons c cs =>
      have hc : c = dquote := by simpa [HasPrefix_dquote_cons] using hp
      subst hc
      refine ⟨cs, rfl, ?_, _, _, parsequotedstring_cons dquote cs⟩
      have := sliceFrom_length_append [dquote] cs
      simpa using this
  · intro ho
    rw [IndexAny_eq] at ho ⊢
    by_cases hs : ∃ c ∈ line, c ∈ [space, tab]
    · have hto := sliceTo_length_append (line.takeWhile (fun c => decide (c ∉ [space, tab])))
        (line.dropWhile (fun c => decide (c ∉ [space, tab])))
      have hfrom := sliceFrom_length_append (line.takeWhile (fun c => decide (c ∉ [space, tab])))
        (line.dropWhile (fun c => decide (c ∉ [space, tab])))
      rw [List.takeWhile_append_dropWhile] at hto hfrom
      simp only [hs, if_true]
      exact ⟨_, _, hto, hfrom⟩
    · simp only [hs, if_false] at ho
      omega

/-- Claim C16, as stated, fails on the body made of the ill-formed byte `0xFF`: the reference
token keeps the byte, and the scanner returns U+FFFD. -/
theorem scanner_reference_ill_formed :
    referenceScan [byteFF] = ([byteFF], []) ∧
    parsequotedstring (dquote :: [byteFF]) = Res.ok ([replacementChar], []) ∧
    parsequotedstring (dquote :: [byteFF]) ≠ Res.ok (referenceScan [byteFF]) := by
  decide

/-- Claim C16, amended. Reference characterisation of the quoted-span scanner: for a string that
begins with a quote, with body `b` the string without that quote, the scanner stops at the
first space or tab of `b` preceded in `b` by an odd number of quotes, or at the end of `b` if
there is none; the remainder is `b` from that offset on, and the token is the part of `b`
before it with its 1st, 3rd, 5th, ... quote deleted and every other character kept in order,
except that each byte that is not part of a well-formed UTF-8 encoding comes as U+FFFD; so
for a body that is well-formed UTF-8 every other character is kept as it is. -/
theorem scanner_reference (b : Str) :
    parsequotedstring (dquote :: b)
      = Res.ok (replaceInvalid (deleteOddQuotes (b.take (stopOffset b))),
          b.drop (stopOffset b)) ∧
    stopOffset b ≤ b.length ∧
    (∀ j, j < stopOffset b → isStopAt b j = false) ∧
    (stopOffset b < b.length → isStopAt b (stopOffset b) = true) ∧
    (WellFormed b →
      parsequotedstring (dquote :: b)
        = Res.ok (deleteOddQuotes (b.take (stopOffset b)), b.drop (stopOffset b))) := by
  have h := stopOffsetFrom_spec b 0
  have e : isStopAtFrom 0 b = isStopAt b := by
    funext i
    simp [isStopAtFrom, isStopAt]
  rw [stopOffsetFrom_zero, e] at h
  refine ⟨parsequotedstring_eq_referenceScan b, h.1, h.2.1, h.2.2, ?_⟩
  intro hwf
  have hw : WellFormed (deleteOddQuotes (b.take (stopOffset b))) := by
    intro it hit
    exact hwf it ((List.take_subset _ _) (deleteOddQuotes_subset _ it hit))
  have := parsequotedstring_eq_referenceScan b
  simp only [referenceScan] at this
  rw [this, replaceInvalid_of_wellFormed _ hw]

/-- Claim C17. For every line that begins with a space or a tab, `Line` returns the empty token
followed by the tokens of the line with its leading spaces/tabs removed. -/
theorem leading_blank_step (c : Item) (cs : Str) (hc : c = space ∨ c = tab) :
    ∃ ts, Line (TrimLeft (c :: cs) [space, tab]) = Res.ok ts ∧
      Line (c :: cs) = Res.ok ([] :: ts) := by
  obtain ⟨ts, hts⟩ := Line_total (TrimLeft (c :: cs) [space, tab])
  refine ⟨ts, hts, ?_⟩
  have hcq : c ≠ dquote := by
    rcases hc with e | e
    · rw [e]; exact fun e2 => dquote_ne_space e2.symm
    · rw [e]; exact fun e2 => dquote_ne_tab e2.symm
  have hp : HasPrefix (c :: cs) [dquote] = false := by simp [HasPrefix_dquote_cons, hcq]
  have hb := LineBody_plain _ hp
  have ht : (c :: cs).takeWhile (fun c => decide (c ∉ [space, tab])) = [] :=
    List.takeWhile_cons_of_neg (by simp only [decide_eq_true_eq, not_not]; exact (mem_seps c).mpr hc)
  have hd : (c :: cs).dropWhile (fun c => decide (c ∉ [space, tab])) = c :: cs :=
    List.dropWhile_cons_of_neg (by simp only [decide_eq_true_eq, not_not]; exact (mem_seps c).mpr hc)
  rw [ht, hd] at hb
  exact Line_step (List.cons_ne_nil _ _) hb hts

/-- Instance of `leading_blank_step` at the line tab, space, `a`, space, `b`. -/
theorem leading_blank_step_witness :
    Line [tab, space, letterA, space, letterB] = Res.ok [[], [letterA], [letterB]] ∧
    ∃ ts, Line (TrimLeft (tab :: [space, letterA, space, letterB]) [space, tab]) = Res.ok ts ∧
      Line (tab :: [space, letterA, space, letterB]) = Res.ok ([] :: ts) :=
  ⟨by decide, leading_blank_step tab [space, letterA, space, letterB] (Or.inr rfl)⟩

/-- Claim C18. `Line` returns the empty list if and only if the line is the empty string;
so every entry of the list returned by `reader` holds at least one token. -/
theorem Line_empty_iff_and_entries (text : Str) :
    (∀ line : Str, Line line = Res.ok [] ↔ line = []) ∧
    ∃ r e, reader text = Res.ok (r, e) ∧ ∀ entry ∈ r, entry ≠ [] := by
  refine ⟨Line_eq_nil_iff, ?_⟩
  obtain ⟨r, hr⟩ := reader_ok text
  refine ⟨r, _, hr, ?_⟩
  have hl : readerLoop (scanLines [] text).1 [] = Res.ok r := by
    unfold reader at hr
    cases h : readerLoop (scanLines [] text).1 [] with
    | fault e => rw [h] at hr; cases hr
    | ok r1 =>
      rw [h] at hr
      injection hr with hr
      injection hr with hr _
      rw [hr]
  exact readerLoop_entries _ [] r hl (by simp)

end Tokenize
